import Mathlib

/-!
Verification of the QR-code generator (byte-mode encoder, Reed-Solomon error
correction, matrix layout, masking, format information) against its
natural-language specification.

The Python sources are shallowly embedded: pure functions become Lean
functions, in-place matrix mutation becomes explicit matrix passing, and
Python exceptions become `Except` values.  Machine integers are `Nat`
(Python integers are unbounded and never negative in this code).
-/

set_option maxRecDepth 40000

namespace QR

/-! ## GF(256) arithmetic

Modelled from the spec: the Reed-Solomon encoder of the repository
(`src/ScreenShots/backupjavafx/error_correction.py`) delegates the actual
GF(256) computation to the external `reedsolo` library, whose code is not
part of this repository.  Section 4.1 of the spec defines the field as
GF(2^8) with primitive polynomial 0x11D.  We model the field directly:
addition is XOR, multiplication is carry-less (polynomial) multiplication
over GF(2) followed by reduction modulo 0x11D.
-/

/-- Fuel-driven recursion for the carry-less product; the fuel only has to
dominate the first factor. -/
def clmulF : Nat → Nat → Nat → Nat
  | 0, _, _ => 0
  | f + 1, a, b =>
    if a = 0 then 0 else (if a % 2 = 1 then b else 0) ^^^ clmulF f (a / 2) (2 * b)

/-- Carry-less (GF(2) polynomial) multiplication of two naturals viewed as
bit vectors of polynomial coefficients. -/
def clmul (a b : Nat) : Nat := clmulF a a b

/-- One reduction step: if bit `k` of `x` is set, cancel it by XOR-ing in
the modulus 0x11D shifted so its top bit lines up with bit `k`. -/
def reduceStep (k x : Nat) : Nat :=
  if x.testBit k then x ^^^ (0x11D <<< (k - 8)) else x

/-- Reduce a GF(2) polynomial of degree at most 14 modulo 0x11D. -/
def gfReduce (x : Nat) : Nat :=
  reduceStep 8 (reduceStep 9 (reduceStep 10 (reduceStep 11
    (reduceStep 12 (reduceStep 13 (reduceStep 14 x))))))

/-- GF(256) multiplication on natural numbers below 256. -/
def gfMulNat (a b : Nat) : Nat := gfReduce (clmul a b)

/-- A GF(256) field element: a byte value. -/
abbrev GF := Fin 256

def clmulF_congr : ∀ f g a b : Nat, a ≤ f → a ≤ g → clmulF f a b = clmulF g a b := by
  intro f
  induction f with
  | zero =>
    intro g a b hf hg
    have ha : a = 0 := by omega
    cases g with
    | zero => rfl
    | succ g => simp [clmulF, ha]
  | succ f ih =>
    intro g a b hf hg
    cases g with
    | zero =>
      have ha : a = 0 := by omega
      simp [clmulF, ha]
    | succ g =>
      show (if a = 0 then 0 else (if a % 2 = 1 then b else 0) ^^^ clmulF f (a / 2) (2 * b)) =
        if a = 0 then 0 else (if a % 2 = 1 then b else 0) ^^^ clmulF g (a / 2) (2 * b)
      by_cases ha : a = 0
      · simp [ha]
      · rw [if_neg ha, if_neg ha, ih g (a / 2) (2 * b) (by omega) (by omega)]

def clmul_eq (a b : Nat) : clmul a b =
    if a = 0 then 0 else (if a % 2 = 1 then b else 0) ^^^ clmul (a / 2) (2 * b) := by
  unfold clmul
  cases a with
  | zero => simp [clmulF]
  | succ n =>
    rw [show clmulF (n + 1) (n + 1) b =
        (if n + 1 = 0 then 0
         else (if (n + 1) % 2 = 1 then b else 0) ^^^ clmulF n ((n + 1) / 2) (2 * b))
      from rfl]
    rw [clmulF_congr n ((n + 1) / 2) ((n + 1) / 2) (2 * b) (by omega) (by omega)]

def clmul_zero_left (b : Nat) : clmul 0 b = 0 := by
  rw [clmul_eq]
  simp

/-- Degree bound for the carry-less product. -/
def clmul_lt (m n : Nat) : ∀ a b : Nat, a < 2 ^ (m + 1) → b < 2 ^ (n + 1) →
    clmul a b < 2 ^ (m + n + 1) := by
  induction m generalizing n with
  | zero =>
    intro a b ha hb
    interval_cases a
    · rw [clmul_zero_left]; positivity
    · have h1 : clmul 1 b = b := by
        rw [clmul_eq, if_neg (by omega), if_pos (by omega)]
        norm_num [clmul_zero_left, Nat.xor_zero]
      rw [h1]
      exact lt_of_lt_of_le hb (Nat.pow_le_pow_right (by omega) (by omega))
  | succ m ih =>
    intro a b ha hb
    by_cases h : a = 0
    · rw [h, clmul_zero_left]; positivity
    · rw [clmul_eq, if_neg h]
      have h1 : a / 2 < 2 ^ (m + 1) := by
        have : 2 ^ (m + 1 + 1) = 2 * 2 ^ (m + 1) := by ring
        omega
      have h2 : 2 * b < 2 ^ (n + 1 + 1) := by
        have : 2 ^ (n + 1 + 1) = 2 * 2 ^ (n + 1) := by ring
        omega
      have h3 := ih (n + 1) (a / 2) (2 * b) h1 h2
      have h4 : m + (n + 1) + 1 = m + 1 + n + 1 := by ring
      rw [h4] at h3
      apply Nat.xor_lt_two_pow _ h3
      by_cases hp : a % 2 = 1
      · rw [if_pos hp]
        calc b < 2 ^ (n + 1) := hb
          _ ≤ 2 ^ (m + 1 + n + 1) := Nat.pow_le_pow_right (by omega) (by omega)
      · rw [if_neg hp]; positivity

def lt_two_pow_of_lt_succ_of_testBit {k x : Nat} (h1 : x < 2 ^ (k + 1))
    (h2 : x.testBit k = false) : x < 2 ^ k := by
  apply Nat.lt_pow_two_of_testBit
  intro i hi
  rcases Nat.eq_or_lt_of_le hi with h | h
  · rw [← h]; exact h2
  · exact Nat.testBit_lt_two_pow
      (lt_of_lt_of_le h1 (Nat.pow_le_pow_right (by omega) h))

/-- A reduction step at bit `k ≥ 8` brings a value below `2 ^ (k + 1)` down
below `2 ^ k`. -/
def reduceStep_lt {k x : Nat} (hk : 8 ≤ k) (h : x < 2 ^ (k + 1)) :
    reduceStep k x < 2 ^ k := by
  unfold reduceStep
  by_cases ht : x.testBit k
  case neg =>
    rw [if_neg (by simpa using ht)]
    exact lt_two_pow_of_lt_succ_of_testBit h (by simpa using ht)
  case pos =>
    rw [if_pos ht]
    have hc : (0x11D <<< (k - 8)) < 2 ^ (k + 1) := by
      rw [Nat.shiftLeft_eq]
      have h1 : (0x11D : Nat) < 2 ^ 9 := by norm_num
      calc 0x11D * 2 ^ (k - 8) < 2 ^ 9 * 2 ^ (k - 8) :=
            (Nat.mul_lt_mul_right (by positivity)).mpr h1
        _ = 2 ^ (9 + (k - 8)) := by rw [Nat.pow_add]
        _ ≤ 2 ^ (k + 1) := Nat.pow_le_pow_right (by omega) (by omega)
    apply lt_two_pow_of_lt_succ_of_testBit (Nat.xor_lt_two_pow h hc)
    rw [Nat.testBit_xor, ht, Nat.testBit_shiftLeft]
    have h1 : k - 8 ≤ k := by omega
    have h2 : k - (k - 8) = 8 := by omega
    simp [h1, h2]
    decide

/-- The reduction of a degree-14 polynomial is a field element. -/
def gfReduce_lt {x : Nat} (h : x < 2 ^ 15) : gfReduce x < 2 ^ 8 := by
  unfold gfReduce
  apply reduceStep_lt (by omega)
  apply reduceStep_lt (by omega)
  apply reduceStep_lt (by omega)
  apply reduceStep_lt (by omega)
  apply reduceStep_lt (by omega)
  apply reduceStep_lt (by omega)
  exact reduceStep_lt (by omega) h

/-- Products of field elements reduce to field elements. -/
def gfMulNat_lt {a b : Nat} (ha : a < 256) (hb : b < 256) :
    gfMulNat a b < 256 := by
  unfold gfMulNat
  have h1 : clmul a b < 2 ^ 15 := by
    have := clmul_lt 7 7 a b (by norm_num; omega) (by norm_num; omega)
    norm_num at this ⊢
    omega
  have h2 := gfReduce_lt h1
  norm_num at h2
  exact h2

def xor_lt_256 {a b : Nat} (ha : a < 256) (hb : b < 256) : a ^^^ b < 256 := by
  have h := Nat.xor_lt_two_pow (n := 8)
    (lt_of_lt_of_le ha (by norm_num)) (lt_of_lt_of_le hb (by norm_num))
  exact lt_of_lt_of_le h (by norm_num)

/-- Field addition: XOR of the byte values. -/
def gfAdd (a b : GF) : GF := ⟨a.val ^^^ b.val, xor_lt_256 a.isLt b.isLt⟩

/-- Field multiplication: carry-less product reduced modulo 0x11D. -/
def gfMul (a b : GF) : GF := ⟨gfMulNat a.val b.val, gfMulNat_lt a.isLt b.isLt⟩

/-- The `i`-th bit of a field element, masked in place. -/
def gfBit (a : GF) (i : Nat) : GF :=
  ⟨a.val &&& 2 ^ i, lt_of_le_of_lt Nat.and_le_left a.isLt⟩

/-- The `i`-th basis element `x^i` of GF(256) over GF(2). -/
def gfPow2 (i : Fin 8) : GF :=
  ⟨2 ^ i.val, by
    have h : i.val ≤ 7 := by omega
    calc 2 ^ i.val ≤ 2 ^ 7 := Nat.pow_le_pow_right (by omega) h
      _ < 256 := by norm_num⟩

/-! ## Polynomials over GF(256)

Polynomials are coefficient lists, high-degree coefficient first, as in the
spec (section 4.1).
-/

/-- The generator α of the multiplicative group used by the standard and by
the reedsolo library (`generator=2`). -/
def gfAlpha : GF := ⟨2, by norm_num⟩

/-- Powers of a field element. -/
def gfPow (x : GF) : Nat → GF
  | 0 => 1
  | n + 1 => gfMul (gfPow x n) x

/-- Horner evaluation of a high-first coefficient list, starting from an
accumulator. -/
def evalFrom (r acc : GF) (p : List GF) : GF :=
  p.foldl (fun a c => gfAdd (gfMul a r) c) acc

/-- Evaluation of a polynomial (high-first coefficients) at a point. -/
def polyEval (p : List GF) (r : GF) : GF := evalFrom r 0 p

/-- Multiply every coefficient by a scalar. -/
def polyScale (s : GF) (p : List GF) : List GF := p.map (gfMul s)

/-- Multiply a polynomial (high-first) by the monic linear factor `(x + r)`;
in characteristic 2 this is the same as `(x − r)`. -/
def polyMulLinear (p : List GF) (r : GF) : List GF :=
  List.zipWith gfAdd (p ++ [0]) (0 :: polyScale r p)

/-- Modelled from the spec: the ECC generator polynomial
`g_e(x) = ∏_{i=0}^{e-1} (x − α^i)` of section 4.1, high-first coefficients. -/
def genPoly : Nat → List GF
  | 0 => [1]
  | e + 1 => polyMulLinear (genPoly e) (gfPow gfAlpha e)

/-- One pass of synthetic division by the monic divisor `1 :: gt`: subtract
`head · (1 :: gt) · x^k` and drop the cancelled head, until fewer than
`gt.length + 1` coefficients remain.  The fuel only has to dominate the
length of the dividend. -/
def rsRemAuxF : Nat → List GF → List GF → List GF
  | 0, _, cur => cur
  | f + 1, gt, cur =>
    match cur with
    | [] => []
    | c :: rest =>
      if rest.length < gt.length then c :: rest
      else rsRemAuxF f gt (List.zipWith gfAdd rest
        (polyScale c gt ++ List.replicate (rest.length - gt.length) 0))

/-- Modelled from the spec: remainder of the polynomial long division of
section 4.3, dividing by the monic polynomial `1 :: gt`. -/
def rsRem (gt cur : List GF) : List GF := rsRemAuxF cur.length gt cur

/-- Modelled from the spec: `generate_error_correction` of
`src/ScreenShots/backupjavafx/error_correction.py` dispatches on the version
(E = 7 for version 1, E = 10 for version 2, error otherwise) and delegates
the Reed-Solomon computation to the external `reedsolo` library, which the
spec describes as the remainder of dividing `message(x)·x^E` by `g_E(x)` in
GF(256). -/
def generate_error_correction (data : List GF) (version : Nat) :
    Except String (List GF) :=
  if version = 1 then
    Except.ok (rsRem (genPoly 7).tail (data ++ List.replicate 7 0))
  else if version = 2 then
    Except.ok (rsRem (genPoly 10).tail (data ++ List.replicate 10 0))
  else Except.error "Unsupported QR version for error correction"

/-! ## Byte-mode encoder

Embedding of `encode_byte_mode` from `src/data_encoding.py`.  A Python
string is a list of Unicode code points; ISO-8859-1 encoding succeeds
exactly when every code point is at most 255, and then the byte sequence is
the code-point sequence.  Bit strings become `List Bool` (`true` = '1'),
codewords become 8-element bit lists.
-/

/-- The two error kinds `encode_byte_mode` can raise (both `ValueError` in
Python, distinguished by their message). -/
inductive EncodeError
  | InvalidCharacter
  | PayloadTooLong
deriving DecidableEq

/-- The bits of `format(b, '08b')`: 8 bits, most significant first. -/
def byteBits (b : Nat) : List Bool :=
  [b.testBit 7, b.testBit 6, b.testBit 5, b.testBit 4,
   b.testBit 3, b.testBit 2, b.testBit 1, b.testBit 0]

/-- Pad codeword `'11101100'` (0xEC). -/
def padByte0 : List Bool := [true, true, true, false, true, true, false, false]

/-- Pad codeword `'00010001'` (0x11). -/
def padByte1 : List Bool := [false, false, false, true, false, false, false, true]

/-- The pad loop of `encode_byte_mode`: while the stream is shorter than the
capacity, append the alternating pad codewords.  Each iteration extends the
stream by 8 bits, so fuel `total` is always sufficient. -/
def padLoopF : Nat → List Bool → Nat → Nat → List Bool
  | 0, stream, _, _ => stream
  | f + 1, stream, total, padIndex =>
    if stream.length < total then
      padLoopF f (stream ++ (if padIndex % 2 = 0 then padByte0 else padByte1))
        total (padIndex + 1)
    else stream

/-- Split a bit stream into 8-bit codewords (the last chunk may be shorter),
mirroring `[bit_stream[i:i+8] for i in range(0, len(bit_stream), 8)]`. -/
def chunk8F : Nat → List Bool → List (List Bool)
  | 0, _ => []
  | f + 1, s => if s = [] then [] else s.take 8 :: chunk8F f (s.drop 8)

/-- The stream after the mode indicator `'0100'`, the 8-bit character count
and the payload bytes have been appended. -/
def headerBits (bytes : List Nat) : List Bool :=
  ([false, true, false, false] ++ byteBits bytes.length)
    ++ (bytes.map byteBits).flatten

/-- The stream after the terminator (up to 4 zeros, truncated at the
capacity `total_data_codewords * 8`) has been appended. -/
def afterTerminator (bytes : List Nat) (D : Nat) : List Bool :=
  headerBits bytes ++
    List.replicate (min 4 (D * 8 - (headerBits bytes).length)) false

/-- The stream after zero padding to the next byte boundary. -/
def afterBytePad (bytes : List Nat) (D : Nat) : List Bool :=
  if (afterTerminator bytes D).length % 8 ≠ 0 then
    afterTerminator bytes D ++
      List.replicate (8 - (afterTerminator bytes D).length % 8) false
  else afterTerminator bytes D

/-- The bit stream built by `encode_byte_mode` for a given byte sequence and
data-codeword count: header, terminator, byte-boundary padding, then
alternating pad codewords up to the capacity. -/
def buildStream (bytes : List Nat) (D : Nat) : List Bool :=
  padLoopF (D * 8) (afterBytePad bytes D) (D * 8) 0

/-- The codeword list returned by `encode_byte_mode`: the stream split into
8-bit chunks, truncated to the first D codewords. -/
def encodeCore (bytes : List Nat) (D : Nat) : List (List Bool) :=
  (chunk8F (buildStream bytes D).length (buildStream bytes D)).take D

/-- Embedding of `encode_byte_mode` (src/data_encoding.py): transcode to
ISO-8859-1, select the version by byte length, build the padded bit stream
and split it into codewords. -/
def encode_byte_mode (data : List Nat) :
    Except EncodeError (List (List Bool) × Nat) :=
  if data.any (fun c => 255 < c) then Except.error EncodeError.InvalidCharacter
  else if data.length ≤ 17 then Except.ok (encodeCore data 19, 1)
  else if data.length ≤ 32 then Except.ok (encodeCore data 34, 2)
  else Except.error EncodeError.PayloadTooLong

/-- The data codewords the byte-mode encoder produces for "HELLO WORLD". -/
def helloWorldData : List GF :=
  [0x40, 0xB4, 0x84, 0x54, 0xC4, 0xC4, 0xF2, 0x05, 0x74,
   0xF5, 0x24, 0xC4, 0x40, 0xEC, 0x11, 0xEC, 0x11, 0xEC, 0x11]

/-- The numeric value of a bit string, mirroring Python `int(c, 2)`. -/
def bitsVal (bs : List Bool) : Nat :=
  bs.foldl (fun a b => 2 * a + (if b then 1 else 0)) 0

/-- An 8-bit codeword as a field element. -/
def byteToGF (bs : List Bool) : GF := ⟨bitsVal bs % 256, Nat.mod_lt _ (by norm_num)⟩

/-- The code points of the string "HELLO WORLD". -/
def helloWorldInput : List Nat := [72, 69, 76, 76, 79, 32, 87, 79, 82, 76, 68]

/-- Alternating pad codewords, starting at pad index `k`: 0xEC at even
indices, 0x11 at odd ones. -/
def specPads (k : Nat) : Nat → List Bool
  | 0 => []
  | n + 1 => (if k % 2 = 0 then padByte0 else padByte1) ++ specPads (k + 1) n

/-- The terminator of the spec: up to 4 zero bits, truncated at the bit
capacity `8·D`. -/
def specTerm (data : List Nat) (D : Nat) : List Bool :=
  List.replicate (min 4 (8 * D - (headerBits data).length)) false

/-- The spec's padding to the next byte boundary. -/
def specBoundary (data : List Nat) (D : Nat) : List Bool :=
  List.replicate ((8 - (headerBits data ++ specTerm data D).length % 8) % 8) false

/-- The data-codeword bit stream as the claim describes it: mode indicator
0100, 8-bit character count, payload bytes MSB-first, up to 4 terminator
zeros truncated at the capacity, zero bits to the next byte boundary, then
alternating pad codewords 11101100 and 00010001 until `8·D` bits. -/
def specStream (data : List Nat) (D : Nat) : List Bool :=
  headerBits data ++ specTerm data D ++ specBoundary data D
    ++ specPads 0 ((8 * D -
        (headerBits data ++ specTerm data D ++ specBoundary data D).length) / 8)

/-! ## Matrix masking

Embedding of `src/matrix_masking.py`.  A matrix cell is a Python `int`, the
reserved marker `'R'`, or `None`; Python `^= 1` on the non-negative ints
this program stores is `Nat.xor` with 1.
-/

/-- A cell of a QR matrix under construction. -/
inductive Cell
  | val (n : Nat)
  | R
  | unset
deriving DecidableEq

/-- Matrices are row lists. -/
abbrev QRMatrix := List (List Cell)

/-- The mask predicates of `MASK_CONDITION_FUNCTIONS` (ISO 18004 patterns
0-7); `math.floor(r / 2)` on naturals is integer division. -/
def mask_condition (p r c : Nat) : Bool :=
  match p with
  | 0 => (r + c) % 2 == 0
  | 1 => r % 2 == 0
  | 2 => c % 3 == 0
  | 3 => (r + c) % 3 == 0
  | 4 => (r / 2 + c / 3) % 2 == 0
  | 5 => (r * c) % 2 + (r * c) % 3 == 0
  | 6 => ((r * c) % 2 + (r * c) % 3) % 2 == 0
  | 7 => ((r + c) % 2 + (r * c) % 3) % 2 == 0
  | _ => false

/-- The per-cell action of the masking loop: an integer cell at a
non-function position satisfying the mask predicate is XOR-ed with 1, every
other cell is returned unchanged. -/
def maskCell (p r c : Nat) (fmv : Bool) (cell : Cell) : Cell :=
  match cell with
  | Cell.val n => if !fmv && mask_condition p r c then Cell.val (n ^^^ 1) else Cell.val n
  | x => x

/-- The inner `for c in range(cols)` loop of the masking pass, walking one
row with its running column index. -/
def applyRow (p r : Nat) (fmRow : List Bool) : Nat → List Cell → List Cell
  | _, [] => []
  | c, cell :: rest =>
    maskCell p r c (fmRow.getD c false) cell :: applyRow p r fmRow (c + 1) rest

/-- The outer `for r in range(rows)` loop of the masking pass. -/
def applyRows (p : Nat) (fm : List (List Bool)) : Nat → List (List Cell) → List (List Cell)
  | _, [] => []
  | r, row :: rest => applyRow p r (fm.getD r []) 0 row :: applyRows p fm (r + 1) rest

/-- The masking pass without the validation prologue. -/
def applyMaskCore (p : Nat) (m : QRMatrix) (fm : List (List Bool)) : QRMatrix :=
  applyRows p fm 0 m

/-- Embedding of `apply_specific_mask_pattern` including its `ValueError`
checks (`pattern_id` range, empty matrix, dimension mismatch). -/
def apply_specific_mask_pattern (p : Nat) (m : QRMatrix) (fm : List (List Bool)) :
    Except String QRMatrix :=
  if ¬ p ≤ 7 then Except.error "Mask ID must be 0-7."
  else if m = [] ∨ fm.length ≠ m.length ∨
      (0 < (m.getD 0 []).length ∧ (m.getD 0 []).length ≠ (fm.getD 0 []).length) then
    Except.error "Dimension mismatch or empty matrix/function_map."
  else Except.ok (applyMaskCore p m fm)

/-- The run penalty of rule 1 over one line, carrying the current colour and
run length like the Python scan. -/
def runScan (current count : Nat) : List Nat → Nat
  | [] => if 5 ≤ count then 3 + (count - 5) else 0
  | v :: rest =>
    if v = current then runScan current (count + 1) rest
    else (if 5 ≤ count then 3 + (count - 5) else 0) + runScan v 1 rest

/-- Rule-1 penalty of a single line (row or column). -/
def linePenalty1 : List Nat → Nat
  | [] => 0
  | v :: rest => runScan v 1 rest

/-- Cell access on integer matrices (in-range accesses only are used). -/
def cellN (m : List (List Nat)) (r c : Nat) : Nat := (m.getD r []).getD c 0

/-- Column `c` of an integer matrix. -/
def colAt (m : List (List Nat)) (c : Nat) : List Nat :=
  m.map (fun row => row.getD c 0)

/-- Rule 1: runs of five or more equal cells in rows and columns. -/
def penalty_rule1 (m : List (List Nat)) : Nat :=
  (m.map linePenalty1).sum +
    ((List.range m.length).map (fun c => linePenalty1 (colAt m c))).sum

/-- Rule 2: 2x2 blocks of equal colour, counted at every position. -/
def penalty_rule2 (m : List (List Nat)) : Nat :=
  ((List.range (m.length - 1)).map (fun r =>
    ((List.range (m.length - 1)).map (fun c =>
      if cellN m r c = cellN m (r + 1) c ∧ cellN m r c = cellN m r (c + 1) ∧
          cellN m r c = cellN m (r + 1) (c + 1) then 3 else 0)).sum)).sum

/-- The two length-11 finder-like windows of rule 3. -/
def rule3Pattern1 : List Nat := [0, 0, 0, 0, 1, 0, 1, 1, 1, 0, 1]

/-- The reversed finder-like window of rule 3. -/
def rule3Pattern2 : List Nat := [1, 0, 1, 1, 1, 0, 1, 0, 0, 0, 0]

/-- Rule-3 penalty of a single line: 40 per window equal to either pattern. -/
def linePenalty3 (line : List Nat) : Nat :=
  ((List.range (line.length - 11 + 1)).map (fun c =>
    if (line.drop c).take 11 = rule3Pattern1 ∨ (line.drop c).take 11 = rule3Pattern2
    then 40 else 0)).sum

/-- Rule 3: finder-like 1:1:3:1:1 windows in rows and columns.  The Python
loop bound `size - pat_len + 1` is taken on the row count for columns as
well (the matrices scored are square). -/
def penalty_rule3 (m : List (List Nat)) : Nat :=
  (m.map (fun row => ((List.range (m.length - 11 + 1)).map (fun c =>
    if (row.drop c).take 11 = rule3Pattern1 ∨ (row.drop c).take 11 = rule3Pattern2
    then 40 else 0)).sum)).sum +
  ((List.range m.length).map (fun c => linePenalty3 (colAt m c))).sum

/-- Rule 4: dark-module balance.  The Python code computes
`floor(|dark/total*100 - 50| / 5)` in floating point; on the matrices in
range (total ≤ 625) the double-precision computation never crosses an
integer boundary incorrectly, so it equals the exact integer form
`|20*dark - 10*total| / total` used here. -/
def penalty_rule4 (m : List (List Nat)) : Nat :=
  if m.length = 0 then 0
  else
    10 * ((((20 : Int) * (m.map (fun row => row.count 1)).sum -
      10 * (m.length * m.length)).natAbs) / (m.length * m.length))

/-- Embedding of `calculate_total_penalty_score`.  Note the Python
degenerate branch returns `10 ^ 18`, which is integer XOR in Python: 24. -/
def calculate_total_penalty_score (m : List (List Nat)) : Nat × List Nat :=
  if m = [] ∨ (0 < m.length ∧ m.getD 0 [] = []) then (24, [24, 24, 24, 24])
  else
    (penalty_rule1 m + penalty_rule2 m + penalty_rule3 m + penalty_rule4 m,
     [penalty_rule1 m, penalty_rule2 m, penalty_rule3 m, penalty_rule4 m])

/-- The integer scoring copy of a matrix: placeholders become light (0). -/
def evalBaseCell (m : QRMatrix) : QRMatrix :=
  m.map (fun row => row.map (fun cell =>
    match cell with
    | Cell.val n => Cell.val n
    | _ => Cell.val 0))

/-- Read an all-integer matrix back as plain numbers (non-integer cells,
which do not occur after `evalBaseCell`, read as 0). -/
def toInts (m : QRMatrix) : List (List Nat) :=
  m.map (fun row => row.map (fun cell =>
    match cell with
    | Cell.val n => n
    | _ => 0))

/-- The mask-evaluation loop of `find_best_pattern`: try each pattern id,
score the masked scoring copy, and keep the strictly best id together with
the correspondingly masked original matrix. -/
def fbLoop (base evalB : QRMatrix) (fm : List (List Bool)) :
    List Nat → Option (Nat × Nat) → Option QRMatrix →
    Except String (Option (Nat × Nat) × Option QRMatrix)
  | [], best, bestM => Except.ok (best, bestM)
  | p :: ps, best, bestM =>
    match apply_specific_mask_pattern p evalB fm with
    | Except.error e => Except.error e
    | Except.ok masked =>
      if (match best with
          | none => true
          | some (_, bs) =>
            decide ((calculate_total_penalty_score (toInts masked)).1 < bs)) then
        match apply_specific_mask_pattern p base fm with
        | Except.error e => Except.error e
        | Except.ok newBestM =>
          fbLoop base evalB fm ps
            (some (p, (calculate_total_penalty_score (toInts masked)).1))
            (some newBestM)
      else
        fbLoop base evalB fm ps best bestM

/-- Embedding of `find_best_pattern`: evaluate all 8 mask patterns on the
scoring copy (reserved cells as light) and return the best masked matrix
and its id; exceptions propagate and the unreachable fallback defaults to
mask 0. -/
def find_best_pattern (base : QRMatrix) (fm : List (List Bool)) :
    Except String (QRMatrix × Nat) :=
  match fbLoop base (evalBaseCell base) fm [0, 1, 2, 3, 4, 5, 6, 7] none none with
  | Except.error e => Except.error e
  | Except.ok (some (pid, _), some bm) => Except.ok (bm, pid)
  | Except.ok _ =>
    match apply_specific_mask_pattern 0 base fm with
    | Except.error e => Except.error e
    | Except.ok bm => Except.ok (bm, 0)

/-- Cell access on QR matrices. -/
def cellAt (m : QRMatrix) (r c : Nat) : Cell := (m.getD r []).getD c Cell.unset

/-- Function-map access. -/
def boolAt (fm : List (List Bool)) (r c : Nat) : Bool := (fm.getD r []).getD c false

/-- The score `find_best_pattern` computes for a pattern id: the four-rule
penalty total of the scoring copy (reserved cells as light 0) masked with
that pattern. -/
def maskScore (m : QRMatrix) (fm : List (List Bool)) (p : Nat) : Nat :=
  (calculate_total_penalty_score (toInts (applyMaskCore p (evalBaseCell m) fm))).1

/-- The pure skeleton of the strict-improvement selection loop. -/
def pureLoop (f : Nat → Nat) : List Nat → Option (Nat × Nat) → Option (Nat × Nat)
  | [], best => best
  | p :: ps, none => pureLoop f ps (some (p, f p))
  | p :: ps, some (b, bs) =>
    if f p < bs then pureLoop f ps (some (p, f p)) else pureLoop f ps (some (b, bs))

/-- Invariant tying the tracked best id to the tracked best matrix. -/
def fbInv (base : QRMatrix) (fm : List (List Bool))
    (best : Option (Nat × Nat)) (bestM : Option QRMatrix) : Prop :=
  match best with
  | none => bestM = none
  | some (b, _) => bestM = some (applyMaskCore b base fm)

/-! ## Matrix layout

Embedding of `src/matrix_layout.py`.  The final format-information pass
operates on integer matrices (`FinalQRMatrix`).
-/

/-- Matrix size for a version; the Python function raises for versions
outside 1..40, which are never passed here. -/
def get_size_from_version (version : Nat) : Nat := (version - 1) * 4 + 21

/-- Version for a matrix size; the Python function raises for invalid
sizes, which are never passed here. -/
def get_version_from_size (size : Nat) : Nat := (size - 21) / 4 + 1

/-- The primary format-information coordinates, in bit order. -/
def FORMAT_INFO_COORDINATES_PRIMARY : List (Nat × Nat) :=
  [(8, 0), (8, 1), (8, 2), (8, 3), (8, 4), (8, 5), (8, 7), (8, 8),
   (7, 8), (5, 8), (4, 8), (3, 8), (2, 8), (1, 8), (0, 8)]

/-- Write one cell of an integer matrix (out-of-range writes are dropped,
matching the guarded Python assignments; in-range code paths always write
within bounds). -/
def setCellN (m : List (List Nat)) (r c v : Nat) : List (List Nat) :=
  m.set r ((m.getD r []).set c v)

/-- Read one cell of an integer matrix. -/
def getCellN (m : List (List Nat)) (r c : Nat) : Nat := (m.getD r []).getD c 0

/-- The final loop of `place_format_information`.  In the Python source the
dark-module assignment and the `return` sit inside the loop body, so the
function returns right after the first non-skipped column (c = 0), leaving
bits 9..14 of this copy unwritten. -/
def formatLastLoop (m : List (List Nat)) (bits : List Nat) (v idx : Nat) :
    List Nat → List (List Nat)
  | [] => m
  | c :: cs =>
    if c = 6 then formatLastLoop m bits v idx cs
    else setCellN (setCellN m 8 c (bits.getD idx 0)) (4 * v + 9) 8 1

/-- First pass of `place_format_information`: the 15 primary bits. -/
def pfiPrimary (m : List (List Nat)) (bits : List Nat) : List (List Nat) :=
  FORMAT_INFO_COORDINATES_PRIMARY.enum.foldl
    (fun acc irc => setCellN acc irc.2.1 irc.2.2 (bits.getD irc.1 0)) m

/-- Second pass: bits 0..7 horizontally at (8, size-1-i). -/
def pfiHoriz (m : List (List Nat)) (bits : List Nat) (size : Nat) :
    List (List Nat) :=
  (List.range 8).foldl
    (fun acc i => setCellN acc 8 (size - 1 - i) (bits.getD i 0)) m

/-- Third pass: bits 8..14 at rows 0..7 of column 8, skipping row 6. -/
def pfiTopCol (m : List (List Nat)) (bits : List Nat) : List (List Nat) :=
  ((List.range 8).foldl (fun (acc : List (List Nat) × Nat) r =>
    if r = 6 then acc
    else (setCellN acc.1 r 8 (bits.getD acc.2 0), acc.2 + 1)) (m, 8)).1

/-- Fourth pass: bits 0..7 vertically at (size-1-i, 8). -/
def pfiBottomCol (m : List (List Nat)) (bits : List Nat) (size : Nat) :
    List (List Nat) :=
  ((List.range 8).foldl (fun (acc : List (List Nat) × Nat) i =>
    (setCellN acc.1 (size - 1 - i) 8 (bits.getD acc.2 0), acc.2 + 1)) (m, 0)).1

/-- Embedding of `place_format_information`: primary copy, top-right
horizontal copy, the top column-8 run (bits 8..14 at rows 0..7 skipping 6),
the bottom-left vertical copy (bits 0..7), then the final loop with its
early return. -/
def place_format_information (m : List (List Nat)) (bits : List Nat)
    (size : Nat) : List (List Nat) :=
  formatLastLoop
    (pfiBottomCol (pfiTopCol (pfiHoriz (pfiPrimary m bits) bits size) bits)
      bits size)
    bits (get_version_from_size size) 8 [0, 1, 2, 3, 4, 5, 6, 7]

/-- Well-formed dimensions of an integer matrix. -/
def DimsN (m : List (List Nat)) (N : Nat) : Prop :=
  m.length = N ∧ ∀ row ∈ m, row.length = N

/-- The 21x21 all-light matrix. -/
def zeroMatrix (n : Nat) : List (List Nat) := List.replicate n (List.replicate n 0)

/-- The 15-bit format pattern 100000000000000 used to exhibit the
format-placement bug. -/
def c1Bits : List Nat := [1, 0, 0, 0, 0, 0, 0, 0, 0, 0, 0, 0, 0, 0, 0]

/-! ## Function pattern map and module placement -/

/-- Write one cell of a Cell matrix (out-of-range writes are dropped, as the
Python bounds checks do). -/
def setCellQ (m : QRMatrix) (r c : Nat) (v : Cell) : QRMatrix :=
  m.set r ((m.getD r []).set c v)

/-- Write a cell only when it is still `None`, as the guarded Python
assignments do. -/
def setIfUnset (m : QRMatrix) (r c : Nat) (v : Cell) : QRMatrix :=
  if cellAt m r c = Cell.unset then setCellQ m r c v else m

/-- Write one cell of a boolean matrix. -/
def setCellB (g : List (List Bool)) (r c : Nat) (v : Bool) : List (List Bool) :=
  g.set r ((g.getD r []).set c v)

/-- The alignment-pattern centre coordinate table of
`ALIGNMENT_PATTERN_COORDS_LOOKUP` (versions 1..40; `.get(version, [])`
behaviour for other keys). -/
def ALIGNMENT_PATTERN_COORDS_LOOKUP (version : Nat) : List Nat :=
  match version with
  | 1 => [] | 2 => [6, 18] | 3 => [6, 22] | 4 => [6, 26] | 5 => [6, 30]
  | 6 => [6, 34] | 7 => [6, 22, 38] | 8 => [6, 24, 42] | 9 => [6, 26, 46]
  | 10 => [6, 28, 50] | 11 => [6, 30, 54] | 12 => [6, 32, 58]
  | 13 => [6, 34, 62] | 14 => [6, 26, 46, 66] | 15 => [6, 26, 48, 70]
  | 16 => [6, 26, 50, 74] | 17 => [6, 30, 54, 78] | 18 => [6, 30, 56, 82]
  | 19 => [6, 30, 58, 86] | 20 => [6, 34, 62, 90] | 21 => [6, 28, 50, 72, 94]
  | 22 => [6, 26, 50, 74, 98] | 23 => [6, 30, 54, 78, 102]
  | 24 => [6, 28, 54, 80, 106] | 25 => [6, 32, 58, 84, 110]
  | 26 => [6, 30, 58, 86, 114] | 27 => [6, 34, 62, 90, 118]
  | 28 => [6, 26, 50, 74, 98, 122] | 29 => [6, 30, 54, 78, 102, 126]
  | 30 => [6, 26, 52, 78, 104, 130] | 31 => [6, 30, 56, 82, 108, 134]
  | 32 => [6, 34, 60, 86, 112, 138] | 33 => [6, 30, 58, 86, 114, 142]
  | 34 => [6, 34, 62, 90, 118, 146] | 35 => [6, 30, 54, 78, 102, 126, 150]
  | 36 => [6, 24, 50, 76, 102, 128, 154] | 37 => [6, 28, 54, 80, 106, 132, 158]
  | 38 => [6, 32, 58, 84, 110, 136, 162] | 39 => [6, 26, 54, 82, 110, 138, 166]
  | 40 => [6, 30, 58, 86, 114, 142, 170]
  | _ => []

/-- Mark a rectangular area of the function map (`mark_area`). -/
def markArea (g : List (List Bool)) (r0 c0 rl cl : Nat) : List (List Bool) :=
  (List.range rl).foldl (fun acc ro =>
    (List.range cl).foldl (fun acc2 co => setCellB acc2 (r0 + ro) (c0 + co) true)
      acc) g

/-- The overlap test of `create_function_pattern_matrix` against the three
8x8 finder areas given as (row, col, rows, cols). -/
def overlapsFinderArea (size : Nat) (rc : Nat × Nat) : Bool :=
  [(0, 0, 8, 8), (0, size - 8, 8, 8), (size - 8, 0, 8, 8)].any
    (fun z =>
      match z with
      | (fr, fc, flr, flc) =>
        ! (decide (rc.1 + 2 < fr) || decide (rc.1 - 2 > fr + flr - 1) ||
           decide (rc.2 + 2 < fc) || decide (rc.2 - 2 > fc + flc - 1)))

/-- Embedding of `create_function_pattern_matrix` from
`src/matrix_masking.py`: finder+separator areas, timing lines, format-info
reservations (primary and both copies) and, for version 2 and above, the
alignment-pattern footprints that survive the skip and overlap rules. -/
def create_function_pattern_matrix (version : Nat) : List (List Bool) :=
  let size := get_size_from_version version
  let g0 := List.replicate size (List.replicate size false)
  let g1 := markArea g0 0 0 8 8
  let g2 := markArea g1 0 (size - 8) 8 8
  let g3 := markArea g2 (size - 8) 0 8 8
  let g4 := (List.range (size - 16)).foldl (fun acc k =>
    setCellB (setCellB acc 6 (8 + k) true) (8 + k) 6 true) g3
  let g5 := FORMAT_INFO_COORDINATES_PRIMARY.foldl
    (fun acc rc => setCellB acc rc.1 rc.2 true) g4
  let g6 := (List.range 8).foldl (fun acc j => setCellB acc 8 (size - 1 - j) true) g5
  let g7 := (List.range 8).foldl (fun acc j => setCellB acc (size - 1 - j) 8 true) g6
  if 2 ≤ version then
    let coords := ALIGNMENT_PATTERN_COORDS_LOOKUP version
    let centers := (coords.map (fun r => coords.filterMap (fun c =>
      if (r = 6 ∧ c = 6) ∨ (r = 6 ∧ c = size - 7) ∨ (r = size - 7 ∧ c = 6)
      then none else some (r, c)))).flatten
    centers.foldl (fun acc rc =>
      if overlapsFinderArea size rc then acc
      else (List.range 5).foldl (fun a2 ro =>
        (List.range 5).foldl (fun a3 co =>
          setCellB a3 (rc.1 - 2 + ro) (rc.2 - 2 + co) true) a2) acc) g7
  else g7

/-- The 7x7 finder pattern. -/
def FINDER_PATTERN : List (List Nat) :=
  [[1, 1, 1, 1, 1, 1, 1], [1, 0, 0, 0, 0, 0, 1], [1, 0, 1, 1, 1, 0, 1],
   [1, 0, 1, 1, 1, 0, 1], [1, 0, 1, 1, 1, 0, 1], [1, 0, 0, 0, 0, 0, 1],
   [1, 1, 1, 1, 1, 1, 1]]

/-- Embedding of `place_finder_pattern`. -/
def place_finder_pattern (m : QRMatrix) (r0 c0 : Nat) : QRMatrix :=
  (List.range 7).foldl (fun acc ro =>
    (List.range 7).foldl (fun acc2 co =>
      setCellQ acc2 (r0 + ro) (c0 + co) (Cell.val (getCellN FINDER_PATTERN ro co)))
      acc) m

/-- Embedding of `place_finder_patterns`. -/
def place_finder_patterns (m : QRMatrix) (size : Nat) : QRMatrix :=
  place_finder_pattern
    (place_finder_pattern (place_finder_pattern m 0 0) 0 (size - 7)) (size - 7) 0

/-- Embedding of `add_separators`. -/
def add_separators (m : QRMatrix) (size : Nat) : QRMatrix :=
  let m1 := (List.range 8).foldl (fun acc i =>
    setCellQ (setCellQ acc i 7 (Cell.val 0)) 7 i (Cell.val 0)) m
  let m2 := (List.range 8).foldl (fun acc i =>
    setCellQ (setCellQ acc i (size - 8) (Cell.val 0)) 7 (size - 1 - i) (Cell.val 0)) m1
  (List.range 8).foldl (fun acc i =>
    setCellQ (setCellQ acc (size - 8) i (Cell.val 0)) (size - 1 - i) 7 (Cell.val 0)) m2

/-- The 5x5 alignment pattern. -/
def ALIGNMENT_PATTERN : List (List Nat) :=
  [[1, 1, 1, 1, 1], [1, 0, 0, 0, 1], [1, 0, 1, 0, 1], [1, 0, 0, 0, 1],
   [1, 1, 1, 1, 1]]

/-- Embedding of `place_alignment_pattern` (only still-empty cells are
written). -/
def place_alignment_pattern (m : QRMatrix) (cr cc : Nat) : QRMatrix :=
  (List.range 5).foldl (fun acc ro =>
    (List.range 5).foldl (fun acc2 co =>
      setIfUnset acc2 (cr - 2 + ro) (cc - 2 + co)
        (Cell.val (getCellN ALIGNMENT_PATTERN ro co))) acc) m

/-- The overlap test of `place_alignment_patterns` against the three finder
zones given as (row start, col start, row end, col end). -/
def overlapsFinderZone (size : Nat) (rc : Nat × Nat) : Bool :=
  [(0, 0, 7, 7), (0, size - 8, 7, size - 1), (size - 8, 0, size - 1, 7)].any
    (fun z =>
      match z with
      | (frs, fcs, fre, fce) =>
        ! (decide (rc.1 + 2 < frs) || decide (rc.1 - 2 > fre) ||
           decide (rc.2 + 2 < fcs) || decide (rc.2 - 2 > fce)))

/-- Embedding of `place_alignment_patterns` from `src/matrix_layout.py`. -/
def place_alignment_patterns (m : QRMatrix) (version : Nat) : QRMatrix :=
  if version < 2 then m
  else
    let coords := ALIGNMENT_PATTERN_COORDS_LOOKUP version
    let size := m.length
    let centers := (coords.map (fun r => coords.map (fun c => (r, c)))).flatten
    centers.foldl (fun acc rc =>
      if overlapsFinderZone size rc then acc
      else place_alignment_pattern acc rc.1 rc.2) m

/-- Embedding of `place_timing_patterns`. -/
def place_timing_patterns (m : QRMatrix) (size : Nat) : QRMatrix :=
  (List.range (size - 16)).foldl (fun acc k =>
    setIfUnset (setIfUnset acc 6 (8 + k)
        (Cell.val (if (8 + k) % 2 = 0 then 1 else 0)))
      (8 + k) 6 (Cell.val (if (8 + k) % 2 = 0 then 1 else 0))) m

/-- Embedding of `reserve_format_info_areas`. -/
def reserve_format_info_areas (m : QRMatrix) (size : Nat) : QRMatrix :=
  let m1 := FORMAT_INFO_COORDINATES_PRIMARY.foldl
    (fun acc rc => setIfUnset acc rc.1 rc.2 Cell.R) m
  let m2 := (List.range 8).foldl
    (fun acc j => setIfUnset acc 8 (size - 1 - j) Cell.R) m1
  (List.range 8).foldl (fun acc j => setIfUnset acc (size - 1 - j) 8 Cell.R) m2

/-- Embedding of `place_dark_module` (reserve only). -/
def place_dark_module (m : QRMatrix) (size : Nat) : QRMatrix :=
  setIfUnset m (size - 8) 8 Cell.R

/-- The structural part of `generate_qr_module`: everything before the data
bits are placed. -/
def layoutPre (version : Nat) : QRMatrix :=
  let size := get_size_from_version version
  let m0 : QRMatrix := List.replicate size (List.replicate size Cell.unset)
  let m1 := place_finder_patterns m0 size
  let m2 := add_separators m1 size
  let m3 := if 2 ≤ version then place_alignment_patterns m2 version else m2
  let m4 := place_timing_patterns m3 size
  let m5 := reserve_format_info_areas m4 size
  place_dark_module m5 size

/-- Both cells of one column pair at one row of the zig-zag walk (the right
column first; a left column below 0 is skipped by the bounds check). -/
def pairPositions (size col : Nat) (down : Bool) : List (Nat × Nat) :=
  ((List.range size).map (fun k =>
    let r := if down then k else size - 1 - k
    (r, col) :: (if 1 ≤ col then [(r, col - 1)] else []))).flatten

/-- The sequence of right-hand columns of the zig-zag walk with the vertical
direction of each pair: from `size-1` down in steps of two, skipping the
timing column 6 by a single step, flipping direction at each pair. -/
def colSeqF : Nat → Int → Bool → List (Nat × Bool)
  | 0, _, _ => []
  | fuel + 1, col, down =>
    if col < 0 then []
    else if col = 6 then colSeqF fuel (col - 1) down
    else (col.toNat, down) :: colSeqF fuel (col - 2) (!down)

/-- The cell-visiting order of the `place_data_bits` walk.  The Python loop
interleaves the walk with the per-cell writes; the walk itself never
inspects the matrix, so it is factored out here: the inner `for` always
runs exactly `size` rows before the bounds check breaks out, and the column
then steps by 2 (by 1 across the timing column). -/
def dataPathPositions (size : Nat) : List (Nat × Nat) :=
  ((colSeqF (size + 2) ((size : Int) - 1) false).map
    (fun cd => pairPositions size cd.1 cd.2)).flatten

/-- The per-cell action of `place_data_bits`: a still-empty cell receives
the next stream bit, or 0 once the stream is exhausted. -/
def placeStep (bits : List Nat) (acc : QRMatrix × Nat) (rc : Nat × Nat) :
    QRMatrix × Nat :=
  if cellAt acc.1 rc.1 rc.2 = Cell.unset then
    if acc.2 < bits.length then
      (setCellQ acc.1 rc.1 rc.2 (Cell.val (bits.getD acc.2 0)), acc.2 + 1)
    else (setCellQ acc.1 rc.1 rc.2 (Cell.val 0), acc.2)
  else acc

/-- The trailing sweep of `place_data_bits`: any remaining empty cell
becomes 0. -/
def fillUnsetZero (m : QRMatrix) : QRMatrix :=
  m.map (fun row => row.map (fun cell =>
    if cell = Cell.unset then Cell.val 0 else cell))

/-- Embedding of `place_data_bits`: walk the zig-zag order, place the stream
bits into empty cells, then fill any remaining empty cell with 0. -/
def place_data_bits (m : QRMatrix) (size : Nat) (bits : List Nat) : QRMatrix :=
  fillUnsetZero ((dataPathPositions size).foldl (placeStep bits) (m, 0)).1

/-- Embedding of `generate_qr_module`. -/
def generate_qr_module (bits : List Nat) (version : Nat) : QRMatrix :=
  place_data_bits (layoutPre version) (get_size_from_version version) bits

/-- Count of non-function cells of a function map. -/
def funcFalseCount (g : List (List Bool)) : Nat :=
  (g.map (fun row => row.count false)).sum

/-- The still-empty positions of a path, in visiting order. -/
def unsetFilter (m : QRMatrix) (P : List (Nat × Nat)) : List (Nat × Nat) :=
  P.filter (fun rc => decide (cellAt m rc.1 rc.2 = Cell.unset))

/-- The positions of the zig-zag walk that are still empty in the laid-out
matrix, in visiting order. -/
def unsetPath (version : Nat) : List (Nat × Nat) :=
  unsetFilter (layoutPre version) (dataPathPositions (get_size_from_version version))

/-! ## Theorems -/

theorem clmul_zero_right (a : Nat) : clmul a 0 = 0 := by
  induction a using Nat.strong_induction_on with
  | _ a ih =>
    rw [clmul_eq]
    by_cases h : a = 0
    · simp [h]
    · have h2 : (2 : Nat) * 0 = 0 := by omega
      rw [if_neg h, h2, ih (a / 2) (Nat.div_lt_self (Nat.pos_of_ne_zero h) (by omega))]
      by_cases hp : a % 2 = 1 <;> simp [hp]

theorem two_mul_xor (b c : Nat) : 2 * (b ^^^ c) = 2 * b ^^^ 2 * c := by
  apply Nat.eq_of_testBit_eq
  intro i
  have h : ∀ x : Nat, 2 * x = x <<< 1 := by
    intro x
    rw [Nat.shiftLeft_eq]
    omega
  rw [h, h, h, Nat.testBit_xor, Nat.testBit_shiftLeft, Nat.testBit_shiftLeft,
    Nat.testBit_shiftLeft, Nat.testBit_xor]
  by_cases hi : 1 ≤ i <;> simp [hi]

theorem xor_mod_two (a b : Nat) : (a ^^^ b) % 2 = (a % 2 + b % 2) % 2 := by
  have ha := Nat.mod_two_eq_zero_or_one a
  have hb := Nat.mod_two_eq_zero_or_one b
  have h := Nat.xor_mod_two_eq_one (a := a) (b := b)
  have h2 := Nat.mod_two_eq_zero_or_one (a ^^^ b)
  rcases ha with ha | ha <;> rcases hb with hb | hb <;>
    simp [ha, hb] at h ⊢ <;> omega

/-- `clmul` distributes over XOR in its second argument. -/
theorem clmul_xor_right (a b c : Nat) : clmul a (b ^^^ c) = clmul a b ^^^ clmul a c := by
  induction a using Nat.strong_induction_on generalizing b c with
  | _ a ih =>
    by_cases h : a = 0
    · simp [h, clmul_zero_left]
    · rw [clmul_eq a (b ^^^ c), clmul_eq a b, clmul_eq a c,
        if_neg h, if_neg h, if_neg h, two_mul_xor,
        ih (a / 2) (Nat.div_lt_self (Nat.pos_of_ne_zero h) (by omega))]
      by_cases hp : a % 2 = 1
      · simp only [if_pos hp]
        rw [Nat.xor_assoc, Nat.xor_assoc]
        congr 1
        rw [← Nat.xor_assoc, ← Nat.xor_assoc]
        congr 1
        exact Nat.xor_comm _ _
      · simp only [if_neg hp, Nat.zero_xor]

theorem xor_left_comm (a b c : Nat) : a ^^^ (b ^^^ c) = b ^^^ (a ^^^ c) := by
  rw [← Nat.xor_assoc, Nat.xor_comm a b, Nat.xor_assoc]

theorem xor_xor_cancel (x y c : Nat) : (x ^^^ c) ^^^ (y ^^^ c) = x ^^^ y := by
  rw [Nat.xor_assoc, Nat.xor_comm c (y ^^^ c), Nat.xor_assoc, Nat.xor_self,
    Nat.xor_zero]

/-- `clmul` distributes over XOR in its first argument. -/
theorem clmul_xor_left (a b c : Nat) : clmul (a ^^^ b) c = clmul a c ^^^ clmul b c := by
  induction a using Nat.strong_induction_on generalizing b c with
  | _ a ih =>
    by_cases ha : a = 0
    · simp [ha, clmul_zero_left]
    · by_cases hb : b = 0
      · simp [hb, clmul_zero_left]
      · by_cases hab : a ^^^ b = 0
        · have : a = b := by
            have := Nat.xor_self a
            apply Nat.eq_of_testBit_eq
            intro i
            have h1 := congrArg (fun x => Nat.testBit x i) hab
            simp only [Nat.testBit_xor, Nat.zero_testBit] at h1
            rcases Bool.eq_false_or_eq_true (a.testBit i) with h | h <;>
              rcases Bool.eq_false_or_eq_true (b.testBit i) with h2 | h2 <;>
              simp [h, h2] at h1 ⊢
          rw [hab, this, clmul_zero_left, Nat.xor_self]
        · rw [clmul_eq (a ^^^ b) c, clmul_eq a c, clmul_eq b c,
            if_neg ha, if_neg hb, if_neg hab]
          have hdiv : (a ^^^ b) / 2 = a / 2 ^^^ b / 2 := Nat.xor_div_two
          rw [hdiv, ih (a / 2) (Nat.div_lt_self (Nat.pos_of_ne_zero ha) (by omega))]
          have hmod : (a ^^^ b) % 2 = (a % 2 + b % 2) % 2 := xor_mod_two a b
          have ha2 := Nat.mod_two_eq_zero_or_one a
          have hb2 := Nat.mod_two_eq_zero_or_one b
          rcases ha2 with h1 | h1 <;> rcases hb2 with h2 | h2
          · have : (a ^^^ b) % 2 = 0 := by omega
            simp only [hmod, h1, h2, this]
            norm_num
          · have h3 : (a ^^^ b) % 2 = 1 := by omega
            simp only [h3, h1, h2]
            norm_num
            exact xor_left_comm c _ _
          · have h3 : (a ^^^ b) % 2 = 1 := by omega
            simp only [h3, h1, h2]
            norm_num
            rw [← Nat.xor_assoc]
          · have h3 : (a ^^^ b) % 2 = 0 := by omega
            simp only [h3, h1, h2]
            norm_num
            rw [Nat.xor_comm c (clmul (a / 2) (2 * c)),
              Nat.xor_comm c (clmul (b / 2) (2 * c))]
            exact (xor_xor_cancel _ _ c).symm

theorem reduceStep_of_true {k x : Nat} (h : x.testBit k = true) :
    reduceStep k x = x ^^^ (0x11D <<< (k - 8)) := by
  unfold reduceStep
  rw [h]
  simp

theorem reduceStep_of_false {k x : Nat} (h : x.testBit k = false) :
    reduceStep k x = x := by
  unfold reduceStep
  rw [h]
  simp

/-- Each reduction step distributes over XOR. -/
theorem reduceStep_xor (k x y : Nat) :
    reduceStep k (x ^^^ y) = reduceStep k x ^^^ reduceStep k y := by
  rcases Bool.eq_false_or_eq_true (x.testBit k) with hx | hx <;>
    rcases Bool.eq_false_or_eq_true (y.testBit k) with hy | hy
  · rw [reduceStep_of_true hx, reduceStep_of_true hy,
      reduceStep_of_false (by rw [Nat.testBit_xor, hx, hy]; rfl)]
    exact (xor_xor_cancel x y _).symm
  · rw [reduceStep_of_true hx, reduceStep_of_false hy,
      reduceStep_of_true (by rw [Nat.testBit_xor, hx, hy]; rfl),
      Nat.xor_assoc x y _, Nat.xor_comm y _, ← Nat.xor_assoc]
  · rw [reduceStep_of_false hx, reduceStep_of_true hy,
      reduceStep_of_true (by rw [Nat.testBit_xor, hx, hy]; rfl),
      Nat.xor_assoc]
  · rw [reduceStep_of_false hx, reduceStep_of_false hy,
      reduceStep_of_false (by rw [Nat.testBit_xor, hx, hy]; rfl)]

/-- `gfReduce` distributes over XOR. -/
theorem gfReduce_xor (x y : Nat) : gfReduce (x ^^^ y) = gfReduce x ^^^ gfReduce y := by
  unfold gfReduce
  rw [reduceStep_xor 14, reduceStep_xor 13, reduceStep_xor 12, reduceStep_xor 11,
    reduceStep_xor 10, reduceStep_xor 9, reduceStep_xor 8]

/-- `gfMulNat` distributes over XOR on the right. -/
theorem gfMulNat_xor_right (a b c : Nat) :
    gfMulNat a (b ^^^ c) = gfMulNat a b ^^^ gfMulNat a c := by
  unfold gfMulNat
  rw [clmul_xor_right, gfReduce_xor]

/-- `gfMulNat` distributes over XOR on the left. -/
theorem gfMulNat_xor_left (a b c : Nat) :
    gfMulNat (a ^^^ b) c = gfMulNat a c ^^^ gfMulNat b c := by
  unfold gfMulNat
  rw [clmul_xor_left, gfReduce_xor]

theorem gfAdd_comm (a b : GF) : gfAdd a b = gfAdd b a := by
  unfold gfAdd
  exact Fin.ext (Nat.xor_comm _ _)

theorem gfAdd_assoc (a b c : GF) : gfAdd (gfAdd a b) c = gfAdd a (gfAdd b c) := by
  unfold gfAdd
  exact Fin.ext (Nat.xor_assoc _ _ _)

theorem gfAdd_zero (a : GF) : gfAdd a 0 = a := by
  unfold gfAdd
  apply Fin.ext
  show a.val ^^^ (0 : GF).val = a.val
  norm_num

theorem zero_gfAdd (a : GF) : gfAdd 0 a = a := by
  rw [gfAdd_comm]
  exact gfAdd_zero a

theorem gfAdd_self (a : GF) : gfAdd a a = 0 := by
  unfold gfAdd
  apply Fin.ext
  show a.val ^^^ a.val = (0 : GF).val
  norm_num

theorem gfMul_zero (a : GF) : gfMul a 0 = 0 := by
  unfold gfMul
  apply Fin.ext
  show gfMulNat a.val (0 : GF).val = (0 : GF).val
  have h0 : (0 : GF).val = 0 := rfl
  rw [h0]
  unfold gfMulNat
  rw [clmul_zero_right]
  rfl

theorem zero_gfMul (a : GF) : gfMul 0 a = 0 := by
  unfold gfMul
  apply Fin.ext
  show gfMulNat (0 : GF).val a.val = (0 : GF).val
  have h0 : (0 : GF).val = 0 := rfl
  rw [h0]
  unfold gfMulNat
  rw [clmul_zero_left]
  rfl

theorem gfMul_one : ∀ a : GF, gfMul a 1 = a := by decide

theorem one_gfMul : ∀ a : GF, gfMul 1 a = a := by decide

/-- Left distributivity of GF multiplication over GF addition. -/
theorem gfMul_gfAdd_left (a b c : GF) :
    gfMul a (gfAdd b c) = gfAdd (gfMul a b) (gfMul a c) := by
  unfold gfMul gfAdd
  exact Fin.ext (gfMulNat_xor_right _ _ _)

/-- Right distributivity of GF multiplication over GF addition. -/
theorem gfMul_gfAdd_right (a b c : GF) :
    gfMul (gfAdd a b) c = gfAdd (gfMul a c) (gfMul b c) := by
  unfold gfMul gfAdd
  exact Fin.ext (gfMulNat_xor_left _ _ _)

set_option maxRecDepth 10000 in
theorem gfDecomp : ∀ a : GF, a =
    gfAdd (gfBit a 0) (gfAdd (gfBit a 1) (gfAdd (gfBit a 2) (gfAdd (gfBit a 3)
      (gfAdd (gfBit a 4) (gfAdd (gfBit a 5) (gfAdd (gfBit a 6) (gfBit a 7))))))) := by
  decide

set_option maxRecDepth 10000 in
theorem gfBit_cases : ∀ a : GF, ∀ i : Fin 8,
    gfBit a i.val = 0 ∨ gfBit a i.val = gfPow2 i := by
  decide

/-- Bit-basis induction for GF(256): a property closed under addition that
holds for `0` and for the eight basis elements holds everywhere. -/
theorem gfInduction (P : GF → Prop) (h0 : P 0)
    (hadd : ∀ x y : GF, P x → P y → P (gfAdd x y))
    (hbit : ∀ i : Fin 8, P (gfPow2 i)) : ∀ a : GF, P a := by
  intro a
  have hcomp : ∀ i : Fin 8, P (gfBit a i.val) := by
    intro i
    rcases gfBit_cases a i with h | h <;> rw [h]
    · exact h0
    · exact hbit i
  rw [gfDecomp a]
  exact hadd _ _ (hcomp 0) (hadd _ _ (hcomp 1) (hadd _ _ (hcomp 2)
    (hadd _ _ (hcomp 3) (hadd _ _ (hcomp 4) (hadd _ _ (hcomp 5)
      (hadd _ _ (hcomp 6) (hcomp 7)))))))

theorem gfMul_pow2_comm : ∀ i j : Fin 8,
    gfMul (gfPow2 i) (gfPow2 j) = gfMul (gfPow2 j) (gfPow2 i) := by
  decide

/-- Commutativity of GF multiplication. -/
theorem gfMul_comm (a b : GF) : gfMul a b = gfMul b a := by
  induction a using gfInduction generalizing b with
  | h0 => rw [gfMul_zero, zero_gfMul]
  | hadd x y hx hy => rw [gfMul_gfAdd_right, gfMul_gfAdd_left, hx, hy]
  | hbit i =>
    induction b using gfInduction with
    | h0 => rw [gfMul_zero, zero_gfMul]
    | hadd x y hx hy => rw [gfMul_gfAdd_right, gfMul_gfAdd_left, hx, hy]
    | hbit j => exact gfMul_pow2_comm i j

theorem gfMul_pow2_assoc : ∀ i j k : Fin 8,
    gfMul (gfMul (gfPow2 i) (gfPow2 j)) (gfPow2 k) =
      gfMul (gfPow2 i) (gfMul (gfPow2 j) (gfPow2 k)) := by
  decide

/-- Associativity of GF multiplication. -/
theorem gfMul_assoc (a b c : GF) :
    gfMul (gfMul a b) c = gfMul a (gfMul b c) := by
  induction a using gfInduction generalizing b c with
  | h0 => simp only [gfMul_zero, zero_gfMul]
  | hadd x y hx hy =>
    rw [gfMul_gfAdd_right, gfMul_gfAdd_right, gfMul_gfAdd_right, hx, hy]
  | hbit i =>
    induction b using gfInduction generalizing c with
    | h0 => simp only [gfMul_zero, zero_gfMul]
    | hadd x y hx hy =>
      rw [gfMul_gfAdd_left, gfMul_gfAdd_right, gfMul_gfAdd_right,
        gfMul_gfAdd_left, hx, hy]
    | hbit j =>
      induction c using gfInduction with
      | h0 => simp only [gfMul_zero, zero_gfMul]
      | hadd x y hx hy =>
        rw [gfMul_gfAdd_left, gfMul_gfAdd_left, gfMul_gfAdd_left, hx, hy]
      | hbit k => exact gfMul_pow2_assoc i j k

theorem gfAdd_left_comm (a b c : GF) : gfAdd a (gfAdd b c) = gfAdd b (gfAdd a c) := by
  rw [← gfAdd_assoc, gfAdd_comm a b, gfAdd_assoc]

theorem gfAdd_add_add (p q s t : GF) :
    gfAdd (gfAdd p q) (gfAdd s t) = gfAdd (gfAdd p s) (gfAdd q t) := by
  rw [gfAdd_assoc, gfAdd_left_comm q s t, ← gfAdd_assoc]

theorem gfAdd_eq_of_gfAdd_eq_zero {a b : GF} (h : gfAdd a b = 0) : b = a := by
  have h2 := congrArg (gfAdd a) h
  rw [← gfAdd_assoc, gfAdd_self, zero_gfAdd, gfAdd_zero] at h2
  exact h2

theorem gfPow_add (x : GF) (m n : Nat) :
    gfPow x (m + n) = gfMul (gfPow x m) (gfPow x n) := by
  induction n with
  | zero => rw [Nat.add_zero]; exact (gfMul_one _).symm
  | succ n ih =>
    have h : m + (n + 1) = (m + n) + 1 := by omega
    rw [h]
    show gfMul (gfPow x (m + n)) x = _
    rw [ih, gfMul_assoc]
    rfl

theorem evalFrom_nil (r a : GF) : evalFrom r a [] = a := rfl

theorem evalFrom_cons (r a c : GF) (p : List GF) :
    evalFrom r a (c :: p) = evalFrom r (gfAdd (gfMul a r) c) p := rfl

theorem evalFrom_append (r a : GF) (p q : List GF) :
    evalFrom r a (p ++ q) = evalFrom r (evalFrom r a p) q := by
  unfold evalFrom
  exact List.foldl_append _ _ _ _

/-- Splitting off the accumulator of a Horner evaluation. -/
theorem evalFrom_acc (r : GF) : ∀ (p : List GF) (a : GF),
    evalFrom r a p = gfAdd (gfMul a (gfPow r p.length)) (evalFrom r 0 p) := by
  intro p
  induction p with
  | nil =>
    intro a
    show a = gfAdd (gfMul a (gfPow r 0)) 0
    rw [show gfPow r 0 = 1 from rfl, gfMul_one, gfAdd_zero]
  | cons c p ih =>
    intro a
    rw [evalFrom_cons, ih (gfAdd (gfMul a r) c), evalFrom_cons r 0 c p,
      zero_gfMul, zero_gfAdd, ih c, gfMul_gfAdd_right, gfAdd_assoc]
    congr 1
    show gfMul (gfMul a r) (gfPow r p.length) = gfMul a (gfPow r (p.length + 1))
    rw [show gfPow r (p.length + 1) = gfMul (gfPow r p.length) r from rfl,
      gfMul_assoc, gfMul_comm r (gfPow r p.length)]

/-- Horner evaluation is additive over pointwise sums. -/
theorem evalFrom_zipWith (r : GF) : ∀ (p q : List GF) (a b : GF),
    p.length = q.length →
    evalFrom r (gfAdd a b) (List.zipWith gfAdd p q) =
      gfAdd (evalFrom r a p) (evalFrom r b q) := by
  intro p
  induction p with
  | nil =>
    intro q a b h
    have hq : q = [] := List.eq_nil_of_length_eq_zero h.symm
    rw [hq]
    rfl
  | cons c p ih =>
    intro q a b h
    cases q with
    | nil => simp at h
    | cons d q =>
      show evalFrom r (gfAdd a b) (gfAdd c d :: List.zipWith gfAdd p q) = _
      rw [evalFrom_cons, evalFrom_cons, evalFrom_cons, gfMul_gfAdd_right,
        gfAdd_add_add]
      exact ih q _ _ (by simpa using h)

/-- Horner evaluation of a scaled polynomial. -/
theorem evalFrom_scale (r s : GF) : ∀ (p : List GF) (a : GF),
    evalFrom r (gfMul s a) (polyScale s p) = gfMul s (evalFrom r a p) := by
  intro p
  induction p with
  | nil => intro a; rfl
  | cons c p ih =>
    intro a
    show evalFrom r (gfAdd (gfMul (gfMul s a) r) (gfMul s c)) (polyScale s p) = _
    rw [gfMul_assoc, ← gfMul_gfAdd_left, ih (gfAdd (gfMul a r) c)]
    rfl

/-- Horner evaluation across trailing zero coefficients multiplies by a
power of the point. -/
theorem evalFrom_zeros (r : GF) : ∀ (k : Nat) (a : GF),
    evalFrom r a (List.replicate k 0) = gfMul a (gfPow r k) := by
  intro k
  induction k with
  | zero => intro a; exact (gfMul_one a).symm
  | succ k ih =>
    intro a
    show evalFrom r (gfAdd (gfMul a r) 0) (List.replicate k 0) = _
    rw [gfAdd_zero, ih (gfMul a r),
      show gfPow r (k + 1) = gfMul (gfPow r k) r from rfl,
      gfMul_assoc, gfMul_comm r (gfPow r k)]

/-- The synthetic-division loop preserves the value of the dividend at every
root of the monic divisor `1 :: gt`. -/
theorem rsRemAuxF_eval (gt : List GF) (r : GF) (hg : evalFrom r 1 gt = 0) :
    ∀ (f : Nat) (cur : List GF), cur.length ≤ f →
      polyEval (rsRemAuxF f gt cur) r = polyEval cur r := by
  have h0gt : evalFrom r 0 gt = gfPow r gt.length := by
    have hF := evalFrom_acc r gt 1
    rw [hg, one_gfMul] at hF
    exact (gfAdd_eq_of_gfAdd_eq_zero hF.symm)
  intro f
  induction f with
  | zero => intro cur h; rfl
  | succ f ih =>
    intro cur h
    cases cur with
    | nil => rfl
    | cons c rest =>
      rw [show rsRemAuxF (f + 1) gt (c :: rest) =
          (if rest.length < gt.length then c :: rest
           else rsRemAuxF f gt (List.zipWith gfAdd rest
             (polyScale c gt ++ List.replicate (rest.length - gt.length) 0)))
        from rfl]
      by_cases hlt : rest.length < gt.length
      · rw [if_pos hlt]
      · rw [if_neg hlt]
        have hQlen : (polyScale c gt ++
            List.replicate (rest.length - gt.length) 0).length = rest.length := by
          simp [polyScale]
          omega
        have hSlen : (List.zipWith gfAdd rest (polyScale c gt ++
            List.replicate (rest.length - gt.length) 0)).length ≤ f := by
          rw [List.length_zipWith, hQlen]
          simp at h ⊢
          omega
        rw [ih _ hSlen]
        -- value preservation across one division step
        unfold polyEval
        have hA := evalFrom_zipWith r rest
          (polyScale c gt ++ List.replicate (rest.length - gt.length) 0) 0 0 hQlen.symm
        rw [gfAdd_zero] at hA
        have hs := evalFrom_scale r c gt 0
        rw [gfMul_zero] at hs
        have hQ : evalFrom r 0 (polyScale c gt ++
            List.replicate (rest.length - gt.length) 0) =
            gfMul (gfMul c (evalFrom r 0 gt)) (gfPow r (rest.length - gt.length)) := by
          rw [evalFrom_append, hs, evalFrom_zeros]
        have hR : evalFrom r 0 (c :: rest) =
            gfAdd (gfMul c (gfPow r rest.length)) (evalFrom r 0 rest) := by
          rw [evalFrom_cons, zero_gfMul, zero_gfAdd, evalFrom_acc r rest c]
        have hrest : rest.length = gt.length + (rest.length - gt.length) := by omega
        have hpow : gfPow r rest.length =
            gfMul (gfPow r gt.length) (gfPow r (rest.length - gt.length)) := by
          conv_lhs => rw [hrest]
          exact gfPow_add r _ _
        rw [hA, hQ, hR, h0gt, hpow, ← gfMul_assoc]
        exact gfAdd_comm _ _

/-- Length of the synthetic-division remainder. -/
theorem rsRemAuxF_length : ∀ (f : Nat) (gt cur : List GF), cur.length ≤ f →
    gt.length ≤ cur.length → (rsRemAuxF f gt cur).length = gt.length := by
  intro f
  induction f with
  | zero =>
    intro gt cur h hg
    have : cur.length = 0 := by omega
    show cur.length = gt.length
    omega
  | succ f ih =>
    intro gt cur h hg
    cases cur with
    | nil =>
      have h0 : gt.length = 0 := by simpa using hg
      show ([] : List GF).length = gt.length
      simp [h0]
    | cons c rest =>
      rw [show rsRemAuxF (f + 1) gt (c :: rest) =
          (if rest.length < gt.length then c :: rest
           else rsRemAuxF f gt (List.zipWith gfAdd rest
             (polyScale c gt ++ List.replicate (rest.length - gt.length) 0)))
        from rfl]
      by_cases hlt : rest.length < gt.length
      · rw [if_pos hlt]
        show rest.length + 1 = gt.length
        simp at hg
        omega
      · rw [if_neg hlt]
        have hQlen : (polyScale c gt ++
            List.replicate (rest.length - gt.length) 0).length = rest.length := by
          simp [polyScale]
          omega
        have hZ : (List.zipWith gfAdd rest (polyScale c gt ++
            List.replicate (rest.length - gt.length) 0)).length = rest.length := by
          rw [List.length_zipWith, hQlen]
          omega
        rw [ih gt _ (by rw [hZ]; simp at h; omega) (by rw [hZ]; omega)]

theorem rsRem_length (gt cur : List GF) (hg : gt.length ≤ cur.length) :
    (rsRem gt cur).length = gt.length :=
  rsRemAuxF_length cur.length gt cur (le_refl _) hg

theorem rsRem_eval (gt cur : List GF) (r : GF) (hg : evalFrom r 1 gt = 0) :
    polyEval (rsRem gt cur) r = polyEval cur r :=
  rsRemAuxF_eval gt r hg cur.length cur (le_refl _)

/-- The combined codeword polynomial (message followed by the division
remainder) vanishes at every root of the monic divisor `1 :: gt`. -/
theorem rs_roots (gt msg : List GF) (r : GF) (hg : evalFrom r 1 gt = 0) :
    polyEval (msg ++ rsRem gt (msg ++ List.replicate gt.length 0)) r = 0 := by
  have hlen : (rsRem gt (msg ++ List.replicate gt.length 0)).length = gt.length := by
    apply rsRem_length
    simp
  have h1 : polyEval (rsRem gt (msg ++ List.replicate gt.length 0)) r =
      polyEval (msg ++ List.replicate gt.length 0) r :=
    rsRem_eval gt _ r hg
  have h2 : polyEval (msg ++ List.replicate gt.length 0) r =
      gfMul (polyEval msg r) (gfPow r gt.length) := by
    unfold polyEval
    rw [evalFrom_append, evalFrom_zeros]
  unfold polyEval
  rw [evalFrom_append]
  have h3 : evalFrom r (evalFrom r 0 msg) (rsRem gt (msg ++ List.replicate gt.length 0)) =
      gfAdd (gfMul (evalFrom r 0 msg) (gfPow r gt.length))
        (evalFrom r 0 (rsRem gt (msg ++ List.replicate gt.length 0))) := by
    rw [evalFrom_acc r _ (evalFrom r 0 msg), hlen]
  rw [h3]
  have h4 : evalFrom r 0 (rsRem gt (msg ++ List.replicate gt.length 0)) =
      gfMul (evalFrom r 0 msg) (gfPow r gt.length) := by
    have := h1.trans h2
    exact this
  rw [h4]
  exact gfAdd_self _

/-- Claim C9: for every list of D data codewords (D=19, E=7 for version 1;
D=34, E=10 for version 2), `generate_error_correction` returns exactly E
codewords equal, high-degree coefficient first, to the remainder of dividing
`message(x)·x^E` by the monic generator polynomial `g_E(x)` in GF(256) with
primitive polynomial 0x11D; equivalently, the polynomial formed by the D+E
combined output codewords evaluates to zero at each root `α^0 .. α^(E-1)`. -/
theorem C9_generate_error_correction (v E : Nat) (msg : List GF)
    (hv : (v = 1 ∧ E = 7 ∧ msg.length = 19) ∨ (v = 2 ∧ E = 10 ∧ msg.length = 34)) :
    ∃ ecc, generate_error_correction msg v = Except.ok ecc ∧
      ecc.length = E ∧
      genPoly E = 1 :: (genPoly E).tail ∧
      ecc = rsRem (genPoly E).tail (msg ++ List.replicate E 0) ∧
      (∀ i, i < E → polyEval (msg ++ ecc) (gfPow gfAlpha i) = 0) := by
  rcases hv with ⟨hv, hE, hlen⟩ | ⟨hv, hE, hlen⟩ <;> subst hv <;> subst hE
  · have hgt : (genPoly 7).tail.length = 7 := by decide
    refine ⟨rsRem (genPoly 7).tail (msg ++ List.replicate 7 0), rfl, ?_, by decide,
      rfl, ?_⟩
    · rw [rsRem_length _ _ (by rw [hgt]; simp [hlen]), hgt]
    · intro i hi
      have hall : ∀ j, j < 7 →
          evalFrom (gfPow gfAlpha j) 1 ((genPoly 7).tail) = 0 := by decide
      have h := rs_roots (genPoly 7).tail msg (gfPow gfAlpha i) (hall i hi)
      rw [hgt] at h
      exact h
  · have hgt : (genPoly 10).tail.length = 10 := by decide
    refine ⟨rsRem (genPoly 10).tail (msg ++ List.replicate 10 0), rfl, ?_, by decide,
      rfl, ?_⟩
    · rw [rsRem_length _ _ (by rw [hgt]; simp [hlen]), hgt]
    · intro i hi
      have hall : ∀ j, j < 10 →
          evalFrom (gfPow gfAlpha j) 1 ((genPoly 10).tail) = 0 := by decide
      have h := rs_roots (genPoly 10).tail msg (gfPow gfAlpha i) (hall i hi)
      rw [hgt] at h
      exact h

/-- Witness for claim C9 at a concrete version-1 message. -/
theorem C9_witness :
    ∃ ecc, generate_error_correction helloWorldData 1 = Except.ok ecc ∧
      ecc.length = 7 ∧
      genPoly 7 = 1 :: (genPoly 7).tail ∧
      ecc = rsRem (genPoly 7).tail (helloWorldData ++ List.replicate 7 0) ∧
      (∀ i, i < 7 → polyEval (helloWorldData ++ ecc) (gfPow gfAlpha i) = 0) :=
  C9_generate_error_correction 1 7 helloWorldData (Or.inl ⟨rfl, rfl, rfl⟩)

/-- Claim C3: `encode_byte_mode` fails with InvalidCharacter exactly when
some character lies outside ISO-8859-1; otherwise it fails with
PayloadTooLong exactly when the byte length exceeds 32; otherwise it
succeeds, selecting version 1 when the length is at most 17 and version 2
when it is at most 32. -/
theorem C3_encode_byte_mode (data : List Nat) :
    (encode_byte_mode data = Except.error EncodeError.InvalidCharacter ↔
      ∃ c ∈ data, 255 < c) ∧
    (encode_byte_mode data = Except.error EncodeError.PayloadTooLong ↔
      ((∀ c ∈ data, c ≤ 255) ∧ 32 < data.length)) ∧
    ((∀ c ∈ data, c ≤ 255) ∧ data.length ≤ 17 ↔
      ∃ cw, encode_byte_mode data = Except.ok (cw, 1)) ∧
    ((∀ c ∈ data, c ≤ 255) ∧ 17 < data.length ∧ data.length ≤ 32 ↔
      ∃ cw, encode_byte_mode data = Except.ok (cw, 2)) := by
  unfold encode_byte_mode
  by_cases hany : data.any (fun c => 255 < c)
  · have hex : ∃ c ∈ data, 255 < c := by
      obtain ⟨c, hc, hp⟩ := List.any_eq_true.mp hany
      exact ⟨c, hc, of_decide_eq_true hp⟩
    have hnall : ¬ (∀ c ∈ data, c ≤ 255) := by
      obtain ⟨c, hc, hgt⟩ := hex
      intro hall
      exact absurd (hall c hc) (by omega)
    rw [if_pos hany]
    refine ⟨⟨fun _ => hex, fun _ => rfl⟩, ?_, ?_, ?_⟩
    · constructor
      · intro h
        injection h with h2
        exact EncodeError.noConfusion h2
      · intro h
        exact absurd h.1 hnall
    · constructor
      · intro h
        exact absurd h.1 hnall
      · rintro ⟨cw, h⟩
        exact Except.noConfusion h
    · constructor
      · intro h
        exact absurd h.1 hnall
      · rintro ⟨cw, h⟩
        exact Except.noConfusion h
  · have hall : ∀ c ∈ data, c ≤ 255 := by
      intro c hc
      by_contra hgt
      exact hany (List.any_eq_true.mpr ⟨c, hc, decide_eq_true (by omega)⟩)
    rw [if_neg hany]
    by_cases h17 : data.length ≤ 17
    · rw [if_pos h17]
      refine ⟨?_, ?_, ?_, ?_⟩
      · exact ⟨fun h => Except.noConfusion h,
          fun ⟨c, hc, hgt⟩ => absurd (hall c hc) (by omega)⟩
      · exact ⟨fun h => Except.noConfusion h, fun h => absurd h.2 (by omega)⟩
      · exact ⟨fun _ => ⟨encodeCore data 19, rfl⟩, fun _ => ⟨hall, h17⟩⟩
      · constructor
        · intro h
          omega
        · rintro ⟨cw, h⟩
          injection h with h2
          have := congrArg Prod.snd h2
          simp at this
    · rw [if_neg h17]
      by_cases h32 : data.length ≤ 32
      · rw [if_pos h32]
        refine ⟨?_, ?_, ?_, ?_⟩
        · exact ⟨fun h => Except.noConfusion h,
            fun ⟨c, hc, hgt⟩ => absurd (hall c hc) (by omega)⟩
        · exact ⟨fun h => Except.noConfusion h, fun h => absurd h.2 (by omega)⟩
        · constructor
          · intro h
            omega
          · rintro ⟨cw, h⟩
            injection h with h2
            have := congrArg Prod.snd h2
            simp at this
        · exact ⟨fun _ => ⟨encodeCore data 34, rfl⟩,
            fun _ => ⟨hall, by omega, h32⟩⟩
      · rw [if_neg h32]
        refine ⟨?_, ?_, ?_, ?_⟩
        · constructor
          · intro h
            injection h with h2
            exact EncodeError.noConfusion h2
          · rintro ⟨c, hc, hgt⟩
            exact absurd (hall c hc) (by omega)
        · exact ⟨fun _ => ⟨hall, by omega⟩, fun _ => rfl⟩
        · exact ⟨fun h => absurd h.2 (by omega), fun ⟨cw, h⟩ => Except.noConfusion h⟩
        · exact ⟨fun h => absurd h.2.2 (by omega), fun ⟨cw, h⟩ => Except.noConfusion h⟩

/-- Counterexample to claim C5 as stated: on "HELLO WORLD" the encoder
returns 0x40, 0xB4, 0x84 as its first three codewords, not 0x40, 0xB5, 0x94
(the stream is 0100 | 00001011 | 01001000(H) | ..., so the second codeword
is 1011_0100). -/
theorem C5_counterexample :
    encode_byte_mode helloWorldInput =
      Except.ok (encodeCore helloWorldInput 19, 1) ∧
    (encodeCore helloWorldInput 19).take 3 ≠
      [byteBits 0x40, byteBits 0xB5, byteBits 0x94] :=
  ⟨rfl, by decide⟩

/-- Claim C5 as amended: for "HELLO WORLD" (11 bytes) the encoder selects
version 1, the first three data codewords are 0x40, 0xB4, 0x84, and the
total codeword count after appending error correction is 26. -/
theorem C5_hello_world :
    ∃ cw ecc, encode_byte_mode helloWorldInput = Except.ok (cw, 1) ∧
      cw.take 3 = [byteBits 0x40, byteBits 0xB4, byteBits 0x84] ∧
      generate_error_correction (cw.map byteToGF) 1 = Except.ok ecc ∧
      cw.length + ecc.length = 26 :=
  ⟨encodeCore helloWorldInput 19,
   rsRem (genPoly 7).tail
     ((encodeCore helloWorldInput 19).map byteToGF ++ List.replicate 7 0),
   rfl, by decide, rfl, by decide⟩

theorem byteBits_length (b : Nat) : (byteBits b).length = 8 := rfl

theorem payload_length : ∀ bytes : List Nat,
    ((bytes.map byteBits).flatten).length = 8 * bytes.length := by
  intro bytes
  induction bytes with
  | nil => rfl
  | cons b bs ih =>
    show ((byteBits b :: bs.map byteBits).flatten).length = 8 * (bs.length + 1)
    rw [List.flatten_cons, List.length_append, ih, byteBits_length]
    ring

theorem headerBits_length (bytes : List Nat) :
    (headerBits bytes).length = 12 + 8 * bytes.length := by
  unfold headerBits
  rw [List.length_append, List.length_append, payload_length, byteBits_length]
  show (4 + 8) + 8 * bytes.length = 12 + 8 * bytes.length
  omega

theorem padSel_length (k : Nat) :
    (if k % 2 = 0 then padByte0 else padByte1).length = 8 := by
  by_cases h : k % 2 = 0 <;> simp [h, padByte0, padByte1]

theorem specPads_length : ∀ (n k : Nat), (specPads k n).length = 8 * n := by
  intro n
  induction n with
  | zero => intro k; rfl
  | succ n ih =>
    intro k
    show ((if k % 2 = 0 then padByte0 else padByte1) ++ specPads (k + 1) n).length = _
    rw [List.length_append, padSel_length, ih (k + 1)]
    ring

/-- The pad loop appends exactly the alternating pad codewords needed to
reach the capacity. -/
theorem padLoopF_eq : ∀ (fuel n : Nat) (stream : List Bool) (total k : Nat),
    total = stream.length + 8 * n → n ≤ fuel →
    padLoopF fuel stream total k = stream ++ specPads k n := by
  intro fuel
  induction fuel with
  | zero =>
    intro n stream total k htot hn
    have hn0 : n = 0 := by omega
    subst hn0
    show stream = stream ++ specPads k 0
    rw [show specPads k 0 = [] from rfl, List.append_nil]
  | succ f ih =>
    intro n stream total k htot hn
    rw [show padLoopF (f + 1) stream total k =
        (if stream.length < total then
          padLoopF f (stream ++ (if k % 2 = 0 then padByte0 else padByte1))
            total (k + 1)
         else stream) from rfl]
    cases n with
    | zero =>
      rw [if_neg (by omega), show specPads k 0 = [] from rfl, List.append_nil]
    | succ m =>
      rw [if_pos (by omega)]
      rw [ih m (stream ++ (if k % 2 = 0 then padByte0 else padByte1)) total (k + 1)
        (by rw [List.length_append, padSel_length]; omega) (by omega)]
      rw [List.append_assoc]
      rfl

theorem chunk8F_flatten : ∀ (fuel : Nat) (s : List Bool), s.length ≤ fuel →
    (chunk8F fuel s).flatten = s := by
  intro fuel
  induction fuel with
  | zero =>
    intro s h
    have hnil : s = [] := List.eq_nil_of_length_eq_zero (by omega)
    subst hnil
    rfl
  | succ f ih =>
    intro s h
    by_cases hs : s = []
    · subst hs; rfl
    · rw [show chunk8F (f + 1) s = (if s = [] then [] else
          s.take 8 :: chunk8F f (s.drop 8)) from rfl, if_neg hs,
        List.flatten_cons, ih (s.drop 8) (by rw [List.length_drop]; omega),
        List.take_append_drop]

theorem chunk8F_length : ∀ (fuel : Nat) (s : List Bool), s.length ≤ fuel →
    (chunk8F fuel s).length = (s.length + 7) / 8 := by
  intro fuel
  induction fuel with
  | zero =>
    intro s h
    have hnil : s = [] := List.eq_nil_of_length_eq_zero (by omega)
    subst hnil
    rfl
  | succ f ih =>
    intro s h
    by_cases hs : s = []
    · subst hs; rfl
    · rw [show chunk8F (f + 1) s = (if s = [] then [] else
          s.take 8 :: chunk8F f (s.drop 8)) from rfl, if_neg hs]
      have hpos : 0 < s.length := List.length_pos.mpr hs
      show (chunk8F f (s.drop 8)).length + 1 = (s.length + 7) / 8
      rw [ih (s.drop 8) (by rw [List.length_drop]; omega), List.length_drop]
      omega

theorem afterTerminator_spec (data : List Nat) (D : Nat)
    (hD : data.length + 2 ≤ D) :
    afterTerminator data D = headerBits data ++ specTerm data D ∧
    (afterTerminator data D).length = 16 + 8 * data.length := by
  have hterm : min 4 (D * 8 - (headerBits data).length) = 4 := by
    rw [headerBits_length]
    omega
  constructor
  · unfold afterTerminator specTerm
    rw [Nat.mul_comm D 8]
  · unfold afterTerminator
    rw [List.length_append, List.length_replicate, hterm, headerBits_length]
    omega

theorem afterBytePad_spec (data : List Nat) (D : Nat)
    (hD : data.length + 2 ≤ D) :
    afterBytePad data D = afterTerminator data D := by
  obtain ⟨_, hlen⟩ := afterTerminator_spec data D hD
  unfold afterBytePad
  rw [if_neg (by rw [hlen]; omega)]

/-- The stream the encoder builds is the stream the claim describes, and it
is exactly `8·D` bits long. -/
theorem buildStream_spec (data : List Nat) (D : Nat)
    (hD : data.length + 2 ≤ D) :
    buildStream data D = specStream data D ∧
    (buildStream data D).length = 8 * D := by
  obtain ⟨hterm_eq, hterm_len⟩ := afterTerminator_spec data D hD
  have hbp := afterBytePad_spec data D hD
  have hbp_len : (afterBytePad data D).length = 16 + 8 * data.length := by
    rw [hbp, hterm_len]
  have hloop := padLoopF_eq (D * 8) (D - 2 - data.length) (afterBytePad data D)
    (D * 8) 0 (by rw [hbp_len]; omega) (by omega)
  have hb0 : specBoundary data D = [] := by
    unfold specBoundary
    rw [← hterm_eq, hterm_len, show (16 + 8 * data.length) % 8 = 0 by omega]
    rfl
  constructor
  · rw [show buildStream data D = padLoopF (D * 8) (afterBytePad data D) (D * 8) 0
      from rfl, hloop, hbp, hterm_eq]
    unfold specStream
    rw [hb0, List.append_nil]
    have hcount : (8 * D - (headerBits data ++ specTerm data D).length) / 8 =
        D - 2 - data.length := by
      rw [← hterm_eq, hterm_len]
      omega
    rw [List.append_assoc, hcount]
    exact (List.append_assoc _ _ _).symm
  · rw [show buildStream data D = padLoopF (D * 8) (afterBytePad data D) (D * 8) 0
      from rfl, hloop, List.length_append, specPads_length, hbp_len]
    omega

/-- Claim C4: for every input whose ISO-8859-1 byte length is at most 32,
the concatenation of the data codewords returned by `encode_byte_mode` is
exactly `8·D` bits long and equals: the mode indicator 0100, the 8-bit
character count, the payload bytes MSB-first, up to 4 terminator zeros
truncated at the capacity `8·D`, zero bits to the next byte boundary, then
alternating pad codewords 11101100 and 00010001 starting with 11101100
until `8·D` bits are reached. -/
theorem C4_codeword_bitstream (data : List Nat) (hvalid : ∀ c ∈ data, c ≤ 255)
    (hlen : data.length ≤ 32) :
    ∃ cw v, encode_byte_mode data = Except.ok (cw, v) ∧
      cw.flatten.length = 8 * (if data.length ≤ 17 then 19 else 34) ∧
      cw.flatten = specStream data (if data.length ≤ 17 then 19 else 34) := by
  have hany : ¬ data.any (fun c => 255 < c) = true := by
    intro h
    obtain ⟨c, hc, hp⟩ := List.any_eq_true.mp h
    have := of_decide_eq_true hp
    exact absurd (hvalid c hc) (by omega)
  by_cases h17 : data.length ≤ 17
  · have henc : encode_byte_mode data = Except.ok (encodeCore data 19, 1) := by
      unfold encode_byte_mode
      rw [if_neg hany, if_pos h17]
    obtain ⟨hs, hl⟩ := buildStream_spec data 19 (by omega)
    have hflat : (encodeCore data 19).flatten = buildStream data 19 := by
      unfold encodeCore
      rw [List.take_of_length_le
        (by rw [chunk8F_length _ _ (le_refl _), hl])]
      exact chunk8F_flatten _ _ (le_refl _)
    exact ⟨encodeCore data 19, 1, henc,
      by rw [hflat, hl, if_pos h17], by rw [hflat, hs, if_pos h17]⟩
  · have h32 : data.length ≤ 32 := hlen
    have henc : encode_byte_mode data = Except.ok (encodeCore data 34, 2) := by
      unfold encode_byte_mode
      rw [if_neg hany, if_neg h17, if_pos h32]
    obtain ⟨hs, hl⟩ := buildStream_spec data 34 (by omega)
    have hflat : (encodeCore data 34).flatten = buildStream data 34 := by
      unfold encodeCore
      rw [List.take_of_length_le
        (by rw [chunk8F_length _ _ (le_refl _), hl])]
      exact chunk8F_flatten _ _ (le_refl _)
    exact ⟨encodeCore data 34, 2, henc,
      by rw [hflat, hl, if_neg h17], by rw [hflat, hs, if_neg h17]⟩

/-- Witness for claim C4 at the one-byte input "A". -/
theorem C4_witness :
    (∀ c ∈ ([65] : List Nat), c ≤ 255) ∧ ([65] : List Nat).length ≤ 32 ∧
    (∃ cw v, encode_byte_mode [65] = Except.ok (cw, v) ∧
      cw.flatten.length = 8 * (if ([65] : List Nat).length ≤ 17 then 19 else 34) ∧
      cw.flatten = specStream [65]
        (if ([65] : List Nat).length ≤ 17 then 19 else 34)) :=
  ⟨by decide, by decide, C4_codeword_bitstream [65] (by decide) (by decide)⟩

theorem getD_mem {α : Type} (l : List α) (d : α) (i : Nat) (h : i < l.length) :
    l.getD i d ∈ l := by
  rw [List.getD_eq_getElem l d h]
  exact List.getElem_mem h

theorem applyRow_length (p r : Nat) (fmRow : List Bool) :
    ∀ (row : List Cell) (c0 : Nat), (applyRow p r fmRow c0 row).length = row.length := by
  intro row
  induction row with
  | nil => intro c0; rfl
  | cons cell rest ih =>
    intro c0
    show (applyRow p r fmRow c0 (cell :: rest)).length = rest.length + 1
    rw [show applyRow p r fmRow c0 (cell :: rest) =
      maskCell p r c0 (fmRow.getD c0 false) cell :: applyRow p r fmRow (c0 + 1) rest
      from rfl]
    simp [ih (c0 + 1)]

theorem applyRows_length (p : Nat) (fm : List (List Bool)) :
    ∀ (m : List (List Cell)) (r0 : Nat), (applyRows p fm r0 m).length = m.length := by
  intro m
  induction m with
  | nil => intro r0; rfl
  | cons row rest ih =>
    intro r0
    show (applyRow p r0 (fm.getD r0 []) 0 row :: applyRows p fm (r0 + 1) rest).length = _
    simp [ih (r0 + 1)]

theorem applyRow_getD (p r : Nat) (fmRow : List Bool) :
    ∀ (row : List Cell) (c0 i : Nat), i < row.length →
      (applyRow p r fmRow c0 row).getD i Cell.unset =
        maskCell p r (c0 + i) (fmRow.getD (c0 + i) false) (row.getD i Cell.unset) := by
  intro row
  induction row with
  | nil => intro c0 i h; simp at h
  | cons cell rest ih =>
    intro c0 i h
    rw [show applyRow p r fmRow c0 (cell :: rest) =
      maskCell p r c0 (fmRow.getD c0 false) cell :: applyRow p r fmRow (c0 + 1) rest
      from rfl]
    cases i with
    | zero => rw [Nat.add_zero]; rfl
    | succ i =>
      show (applyRow p r fmRow (c0 + 1) rest).getD i Cell.unset = _
      rw [ih (c0 + 1) i (by simpa using h), show c0 + 1 + i = c0 + (i + 1) by omega]
      rfl

theorem applyRows_getD (p : Nat) (fm : List (List Bool)) :
    ∀ (m : List (List Cell)) (r0 i : Nat), i < m.length →
      (applyRows p fm r0 m).getD i [] =
        applyRow p (r0 + i) (fm.getD (r0 + i) []) 0 (m.getD i []) := by
  intro m
  induction m with
  | nil => intro r0 i h; simp at h
  | cons row rest ih =>
    intro r0 i h
    rw [show applyRows p fm r0 (row :: rest) =
      applyRow p r0 (fm.getD r0 []) 0 row :: applyRows p fm (r0 + 1) rest from rfl]
    cases i with
    | zero => rw [Nat.add_zero]; rfl
    | succ i =>
      show (applyRows p fm (r0 + 1) rest).getD i [] = _
      rw [ih (r0 + 1) i (by simpa using h), show r0 + 1 + i = r0 + (i + 1) by omega]
      rfl

/-- Pointwise description of the masking pass. -/
theorem applyMaskCore_cellAt (p : Nat) (m : QRMatrix) (fm : List (List Bool))
    (r c : Nat) (hr : r < m.length) (hc : c < (m.getD r []).length) :
    cellAt (applyMaskCore p m fm) r c =
      maskCell p r c (boolAt fm r c) (cellAt m r c) := by
  unfold applyMaskCore cellAt boolAt
  rw [applyRows_getD p fm m 0 r hr, Nat.zero_add,
    applyRow_getD p r (fm.getD r []) (m.getD r []) 0 c hc, Nat.zero_add]

theorem maskCell_id (p r c : Nat) (fmv : Bool) (cell : Cell)
    (h : ¬(fmv = false ∧ mask_condition p r c = true)) :
    maskCell p r c fmv cell = cell := by
  cases cell with
  | val n =>
    show (if (!fmv && mask_condition p r c) = true then Cell.val (n ^^^ 1)
      else Cell.val n) = Cell.val n
    rw [if_neg]
    intro hcond
    rcases Bool.eq_false_or_eq_true fmv with hf | hf
    · rw [hf] at hcond
      simp at hcond
    · rw [hf] at hcond
      simp at hcond
      exact h ⟨hf, hcond⟩
  | R => rfl
  | unset => rfl

theorem maskCell_involution (p r c : Nat) (fmv : Bool) (cell : Cell) :
    maskCell p r c fmv (maskCell p r c fmv cell) = cell := by
  cases cell with
  | val n =>
    show maskCell p r c fmv (if (!fmv && mask_condition p r c) = true
      then Cell.val (n ^^^ 1) else Cell.val n) = Cell.val n
    by_cases h : (!fmv && mask_condition p r c) = true
    · rw [if_pos h]
      show (if (!fmv && mask_condition p r c) = true then Cell.val (n ^^^ 1 ^^^ 1)
        else Cell.val (n ^^^ 1)) = Cell.val n
      rw [if_pos h, Nat.xor_assoc, Nat.xor_self, Nat.xor_zero]
    · rw [if_neg h]
      show (if (!fmv && mask_condition p r c) = true then Cell.val (n ^^^ 1)
        else Cell.val n) = Cell.val n
      rw [if_neg h]
  | R => rfl
  | unset => rfl

theorem applyRow_involution (p r : Nat) (fmRow : List Bool) :
    ∀ (row : List Cell) (c0 : Nat),
      applyRow p r fmRow c0 (applyRow p r fmRow c0 row) = row := by
  intro row
  induction row with
  | nil => intro c0; rfl
  | cons cell rest ih =>
    intro c0
    show applyRow p r fmRow c0
      (maskCell p r c0 (fmRow.getD c0 false) cell :: applyRow p r fmRow (c0 + 1) rest) = _
    rw [show ∀ x xs, applyRow p r fmRow c0 (x :: xs) =
      maskCell p r c0 (fmRow.getD c0 false) x :: applyRow p r fmRow (c0 + 1) xs
      from fun x xs => rfl]
    rw [maskCell_involution, ih (c0 + 1)]

theorem applyRows_involution (p : Nat) (fm : List (List Bool)) :
    ∀ (m : List (List Cell)) (r0 : Nat),
      applyRows p fm r0 (applyRows p fm r0 m) = m := by
  intro m
  induction m with
  | nil => intro r0; rfl
  | cons row rest ih =>
    intro r0
    show applyRows p fm r0
      (applyRow p r0 (fm.getD r0 []) 0 row :: applyRows p fm (r0 + 1) rest) = _
    rw [show ∀ x xs, applyRows p fm r0 (x :: xs) =
      applyRow p r0 (fm.getD r0 []) 0 x :: applyRows p fm (r0 + 1) xs
      from fun x xs => rfl]
    rw [applyRow_involution, ih (r0 + 1)]

/-- Row lengths survive the masking pass. -/
theorem applyMaskCore_row_length (p : Nat) (m : QRMatrix) (fm : List (List Bool))
    (r : Nat) (hr : r < m.length) :
    ((applyMaskCore p m fm).getD r []).length = (m.getD r []).length := by
  unfold applyMaskCore
  rw [applyRows_getD p fm m 0 r hr, Nat.zero_add, applyRow_length]

/-- The validation prologue accepts matching non-empty dimensions. -/
theorem apply_specific_mask_pattern_ok (p : Nat) (hp : p ≤ 7) (m : QRMatrix)
    (fm : List (List Bool)) (N : Nat) (hN : 0 < N) (hm : m.length = N)
    (hfm : fm.length = N) (hrow : ∀ row ∈ m, row.length = N)
    (hfrow : ∀ row ∈ fm, row.length = N) :
    apply_specific_mask_pattern p m fm = Except.ok (applyMaskCore p m fm) := by
  unfold apply_specific_mask_pattern
  rw [if_neg (by omega)]
  rw [if_neg]
  push_neg
  have hmne : m ≠ [] := by
    intro h
    rw [h] at hm
    simp at hm
    omega
  refine ⟨hmne, by omega, ?_⟩
  intro _
  rw [hrow (m.getD 0 []) (getD_mem m [] 0 (by omega)),
    hfrow (fm.getD 0 []) (getD_mem fm [] 0 (by omega))]

/-- Claim C6: for every mask id 0-7, function map of matching dimensions and
matrix whose non-function cells are the integers 0 or 1, the masked matrix
flips a cell (XOR 1) exactly where the function map is false and the mask
predicate holds, and keeps every other cell (function cells and reserved
cells included) unchanged. -/
theorem C6_mask_frame_effect (p : Nat) (hp : p ≤ 7) (m : QRMatrix)
    (fm : List (List Bool)) (N : Nat) (hN : 0 < N) (hm : m.length = N)
    (hfm : fm.length = N) (hrow : ∀ row ∈ m, row.length = N)
    (hfrow : ∀ row ∈ fm, row.length = N)
    (hdata : ∀ r c, r < N → c < N → boolAt fm r c = false →
      cellAt m r c = Cell.val 0 ∨ cellAt m r c = Cell.val 1) :
    ∃ m2, apply_specific_mask_pattern p m fm = Except.ok m2 ∧
      ∀ r c, r < N → c < N →
        ((boolAt fm r c = false ∧ mask_condition p r c = true →
            ∀ b, cellAt m r c = Cell.val b → cellAt m2 r c = Cell.val (b ^^^ 1)) ∧
         (¬(boolAt fm r c = false ∧ mask_condition p r c = true) →
            cellAt m2 r c = cellAt m r c)) := by
  refine ⟨applyMaskCore p m fm,
    apply_specific_mask_pattern_ok p hp m fm N hN hm hfm hrow hfrow, ?_⟩
  intro r c hr hc
  have hr2 : r < m.length := by omega
  have hc2 : c < (m.getD r []).length := by
    rw [hrow (m.getD r []) (getD_mem m [] r hr2)]
    omega
  rw [applyMaskCore_cellAt p m fm r c hr2 hc2]
  constructor
  · rintro ⟨hfv, hcond⟩ b hb
    rw [hb]
    show (if (!(boolAt fm r c) && mask_condition p r c) = true then Cell.val (b ^^^ 1)
      else Cell.val b) = Cell.val (b ^^^ 1)
    rw [if_pos (by rw [hfv, hcond]; rfl)]
  · intro h
    exact maskCell_id p r c _ _ h

/-- Claim C10: applying the same mask pattern twice with the same function
map returns the original matrix. -/
theorem C10_mask_involution (p : Nat) (hp : p ≤ 7) (m : QRMatrix)
    (fm : List (List Bool)) (N : Nat) (hN : 0 < N) (hm : m.length = N)
    (hfm : fm.length = N) (hrow : ∀ row ∈ m, row.length = N)
    (hfrow : ∀ row ∈ fm, row.length = N)
    (hdata : ∀ r c, r < N → c < N → boolAt fm r c = false →
      cellAt m r c = Cell.val 0 ∨ cellAt m r c = Cell.val 1) :
    ∃ m2, apply_specific_mask_pattern p m fm = Except.ok m2 ∧
      apply_specific_mask_pattern p m2 fm = Except.ok m := by
  refine ⟨applyMaskCore p m fm,
    apply_specific_mask_pattern_ok p hp m fm N hN hm hfm hrow hfrow, ?_⟩
  have hlen2 : (applyMaskCore p m fm).length = N := by
    unfold applyMaskCore
    rw [applyRows_length, hm]
  have hrow2 : ∀ row ∈ applyMaskCore p m fm, row.length = N := by
    intro row hrowmem
    obtain ⟨i, hi, hget⟩ := List.mem_iff_getElem.mp hrowmem
    have hi2 : i < m.length := by omega
    have := applyMaskCore_row_length p m fm i hi2
    rw [← hget]
    rw [← List.getD_eq_getElem (applyMaskCore p m fm) [] hi]
    rw [this, hrow (m.getD i []) (getD_mem m [] i hi2)]
  rw [apply_specific_mask_pattern_ok p hp (applyMaskCore p m fm) fm N hN hlen2
    hfm hrow2 hfrow]
  unfold applyMaskCore
  rw [applyRows_involution]

/-- The strict-improvement loop started at `b` computes the first minimizer
of `f` over `b :: L` when the candidate list ascends. -/
theorem pureLoop_argmin (f : Nat → Nat) : ∀ (L : List Nat) (b : Nat),
    List.Pairwise (· < ·) (b :: L) →
    ∃ i, pureLoop f L (some (b, f b)) = some (i, f i) ∧ i ∈ b :: L ∧
      (∀ j ∈ b :: L, f i ≤ f j) ∧ (∀ j ∈ b :: L, f j = f i → i ≤ j) := by
  intro L
  induction L with
  | nil =>
    intro b hpw
    exact ⟨b, rfl, List.mem_singleton.mpr rfl,
      by intro j hj; rw [List.mem_singleton.mp hj],
      by intro j hj _; rw [List.mem_singleton.mp hj]⟩
  | cons p ps ih =>
    intro b hpw
    have hbp : b < p := (List.pairwise_cons.mp hpw).1 p (List.mem_cons_self p ps)
    by_cases hlt : f p < f b
    · rw [show pureLoop f (p :: ps) (some (b, f b)) =
        (if f p < f b then pureLoop f ps (some (p, f p))
         else pureLoop f ps (some (b, f b))) from rfl, if_pos hlt]
      obtain ⟨i, hres, hmem, hmin, htie⟩ := ih p (List.pairwise_cons.mp hpw).2
      refine ⟨i, hres, List.mem_cons_of_mem b hmem, ?_, ?_⟩
      · intro j hj
        rcases List.mem_cons.mp hj with hj | hj
        · subst hj
          have := hmin p (List.mem_cons_self p ps)
          omega
        · exact hmin j hj
      · intro j hj hfj
        rcases List.mem_cons.mp hj with hj | hj
        · subst hj
          have := hmin p (List.mem_cons_self p ps)
          omega
        · exact htie j hj hfj
    · rw [show pureLoop f (p :: ps) (some (b, f b)) =
        (if f p < f b then pureLoop f ps (some (p, f p))
         else pureLoop f ps (some (b, f b))) from rfl, if_neg hlt]
      have hsub : (b :: ps).Sublist (b :: p :: ps) :=
        List.Sublist.cons₂ b (List.sublist_cons_self p ps)
      obtain ⟨i, hres, hmem, hmin, htie⟩ := ih b (hpw.sublist hsub)
      have hib : f i = f b → i ≤ b := by
        intro hfi
        exact htie b (List.mem_cons_self b ps) hfi.symm
      refine ⟨i, hres, ?_, ?_, ?_⟩
      · rcases List.mem_cons.mp hmem with h | h
        · exact List.mem_cons.mpr (Or.inl h)
        · exact List.mem_cons_of_mem b (List.mem_cons_of_mem p h)
      · intro j hj
        have hfib : f i ≤ f b := hmin b (List.mem_cons_self b ps)
        rcases List.mem_cons.mp hj with hj | hj
        · subst hj
          exact hfib
        · rcases List.mem_cons.mp hj with hj | hj
          · subst hj
            omega
          · exact hmin j (List.mem_cons_of_mem b hj)
      · intro j hj hfj
        rcases List.mem_cons.mp hj with hj | hj
        · subst hj
          exact htie _ (List.mem_cons_self _ ps) hfj
        · rcases List.mem_cons.mp hj with hj | hj
          · subst hj
            have hfib : f i ≤ f b := hmin b (List.mem_cons_self b ps)
            have hbi : i ≤ b := hib (by omega)
            omega
          · exact htie j (List.mem_cons_of_mem b hj) hfj

theorem fbLoop_cons_none (base evalB : QRMatrix) (fm : List (List Bool))
    (p : Nat) (ps : List Nat) (bestM : Option QRMatrix) (mE mB : QRMatrix)
    (hE : apply_specific_mask_pattern p evalB fm = Except.ok mE)
    (hB : apply_specific_mask_pattern p base fm = Except.ok mB) :
    fbLoop base evalB fm (p :: ps) none bestM =
      fbLoop base evalB fm ps
        (some (p, (calculate_total_penalty_score (toInts mE)).1)) (some mB) := by
  show (match apply_specific_mask_pattern p evalB fm with
    | Except.error e => Except.error e
    | Except.ok masked =>
      if (match (none : Option (Nat × Nat)) with
          | none => true
          | some (_, bs) =>
            decide ((calculate_total_penalty_score (toInts masked)).1 < bs)) then
        match apply_specific_mask_pattern p base fm with
        | Except.error e => Except.error e
        | Except.ok newBestM =>
          fbLoop base evalB fm ps
            (some (p, (calculate_total_penalty_score (toInts masked)).1))
            (some newBestM)
      else fbLoop base evalB fm ps none bestM) = _
  rw [hE, hB]
  rfl

theorem fbLoop_cons_lt (base evalB : QRMatrix) (fm : List (List Bool))
    (p : Nat) (ps : List Nat) (b bs : Nat) (bestM : Option QRMatrix)
    (mE mB : QRMatrix)
    (hE : apply_specific_mask_pattern p evalB fm = Except.ok mE)
    (hB : apply_specific_mask_pattern p base fm = Except.ok mB)
    (hlt : (calculate_total_penalty_score (toInts mE)).1 < bs) :
    fbLoop base evalB fm (p :: ps) (some (b, bs)) bestM =
      fbLoop base evalB fm ps
        (some (p, (calculate_total_penalty_score (toInts mE)).1)) (some mB) := by
  show (match apply_specific_mask_pattern p evalB fm with
    | Except.error e => Except.error e
    | Except.ok masked =>
      if (match (some (b, bs) : Option (Nat × Nat)) with
          | none => true
          | some (_, bs) =>
            decide ((calculate_total_penalty_score (toInts masked)).1 < bs)) then
        match apply_specific_mask_pattern p base fm with
        | Except.error e => Except.error e
        | Except.ok newBestM =>
          fbLoop base evalB fm ps
            (some (p, (calculate_total_penalty_score (toInts masked)).1))
            (some newBestM)
      else fbLoop base evalB fm ps (some (b, bs)) bestM) = _
  rw [hE]
  show (if decide ((calculate_total_penalty_score (toInts mE)).1 < bs) = true then
      match apply_specific_mask_pattern p base fm with
      | Except.error e => Except.error e
      | Except.ok newBestM =>
        fbLoop base evalB fm ps
          (some (p, (calculate_total_penalty_score (toInts mE)).1))
          (some newBestM)
    else fbLoop base evalB fm ps (some (b, bs)) bestM) = _
  rw [if_pos (decide_eq_true hlt), hB]

theorem fbLoop_cons_ge (base evalB : QRMatrix) (fm : List (List Bool))
    (p : Nat) (ps : List Nat) (b bs : Nat) (bestM : Option QRMatrix)
    (mE : QRMatrix)
    (hE : apply_specific_mask_pattern p evalB fm = Except.ok mE)
    (hge : ¬ (calculate_total_penalty_score (toInts mE)).1 < bs) :
    fbLoop base evalB fm (p :: ps) (some (b, bs)) bestM =
      fbLoop base evalB fm ps (some (b, bs)) bestM := by
  show (match apply_specific_mask_pattern p evalB fm with
    | Except.error e => Except.error e
    | Except.ok masked =>
      if (match (some (b, bs) : Option (Nat × Nat)) with
          | none => true
          | some (_, bs) =>
            decide ((calculate_total_penalty_score (toInts masked)).1 < bs)) then
        match apply_specific_mask_pattern p base fm with
        | Except.error e => Except.error e
        | Except.ok newBestM =>
          fbLoop base evalB fm ps
            (some (p, (calculate_total_penalty_score (toInts masked)).1))
            (some newBestM)
      else fbLoop base evalB fm ps (some (b, bs)) bestM) = _
  rw [hE]
  show (if decide ((calculate_total_penalty_score (toInts mE)).1 < bs) = true then
      match apply_specific_mask_pattern p base fm with
      | Except.error e => Except.error e
      | Except.ok newBestM =>
        fbLoop base evalB fm ps
          (some (p, (calculate_total_penalty_score (toInts mE)).1))
          (some newBestM)
    else fbLoop base evalB fm ps (some (b, bs)) bestM) = _
  rw [if_neg (by simpa using hge)]

/-- Under valid dimensions the effectful selection loop computes exactly the
pure skeleton applied to `maskScore`, and tracks the matching masked
matrix. -/
theorem fbLoop_eq_pure (base : QRMatrix) (fm : List (List Bool)) (N : Nat)
    (hN : 0 < N) (hm : base.length = N) (hfm : fm.length = N)
    (hrow : ∀ row ∈ base, row.length = N) (hfrow : ∀ row ∈ fm, row.length = N) :
    ∀ (L : List Nat) (best : Option (Nat × Nat)) (bestM : Option QRMatrix),
      (∀ p ∈ L, p ≤ 7) → fbInv base fm best bestM →
      ∃ bestM2, fbLoop base (evalBaseCell base) fm L best bestM =
          Except.ok (pureLoop (maskScore base fm) L best, bestM2) ∧
        fbInv base fm (pureLoop (maskScore base fm) L best) bestM2 := by
  have hmE : (evalBaseCell base).length = N := by
    unfold evalBaseCell
    rw [List.length_map, hm]
  have hrowE : ∀ row ∈ evalBaseCell base, row.length = N := by
    intro row hr
    obtain ⟨orig, ho, rfl⟩ := List.mem_map.mp hr
    rw [List.length_map]
    exact hrow orig ho
  have hokE : ∀ p, p ≤ 7 → apply_specific_mask_pattern p (evalBaseCell base) fm =
      Except.ok (applyMaskCore p (evalBaseCell base) fm) := fun p hp =>
    apply_specific_mask_pattern_ok p hp _ fm N hN hmE hfm hrowE hfrow
  have hokB : ∀ p, p ≤ 7 → apply_specific_mask_pattern p base fm =
      Except.ok (applyMaskCore p base fm) := fun p hp =>
    apply_specific_mask_pattern_ok p hp base fm N hN hm hfm hrow hfrow
  have hscore : ∀ p, (calculate_total_penalty_score
      (toInts (applyMaskCore p (evalBaseCell base) fm))).1 = maskScore base fm p :=
    fun p => rfl
  intro L
  induction L with
  | nil =>
    intro best bestM hL hinv
    exact ⟨bestM, rfl, hinv⟩
  | cons p ps ih =>
    intro best bestM hL hinv
    have hp : p ≤ 7 := hL p (List.mem_cons_self p ps)
    have hps : ∀ q ∈ ps, q ≤ 7 := fun q hq => hL q (List.mem_cons_of_mem p hq)
    cases best with
    | none =>
      rw [fbLoop_cons_none base _ fm p ps bestM _ _ (hokE p hp) (hokB p hp), hscore]
      rw [show pureLoop (maskScore base fm) (p :: ps) none =
        pureLoop (maskScore base fm) ps (some (p, maskScore base fm p)) from rfl]
      exact ih (some (p, maskScore base fm p)) (some (applyMaskCore p base fm))
        hps rfl
    | some pair =>
      obtain ⟨b, bs⟩ := pair
      rw [show pureLoop (maskScore base fm) (p :: ps) (some (b, bs)) =
        (if maskScore base fm p < bs then
          pureLoop (maskScore base fm) ps (some (p, maskScore base fm p))
         else pureLoop (maskScore base fm) ps (some (b, bs))) from rfl]
      by_cases hlt : maskScore base fm p < bs
      · rw [fbLoop_cons_lt base _ fm p ps b bs bestM _ _ (hokE p hp) (hokB p hp)
          (by rw [hscore]; exact hlt), hscore, if_pos hlt]
        exact ih (some (p, maskScore base fm p)) (some (applyMaskCore p base fm))
          hps rfl
      · rw [fbLoop_cons_ge base _ fm p ps b bs bestM _ (hokE p hp)
          (by rw [hscore]; exact hlt), if_neg hlt]
        exact ih (some (b, bs)) bestM hps hinv

/-- Claim C2: for every pre-format matrix with its function map,
`find_best_pattern` returns a mask id in 0..7 whose four-rule penalty total
(scoring still-reserved cells as light) is minimal among all eight patterns,
and which is the lowest id among the minimizers. -/
theorem C2_find_best_pattern (m : QRMatrix) (fm : List (List Bool)) (N : Nat)
    (hN : 0 < N) (hm : m.length = N) (hfm : fm.length = N)
    (hrow : ∀ row ∈ m, row.length = N) (hfrow : ∀ row ∈ fm, row.length = N) :
    ∃ bm bid, find_best_pattern m fm = Except.ok (bm, bid) ∧ bid ≤ 7 ∧
      (∀ q, q ≤ 7 → maskScore m fm bid ≤ maskScore m fm q) ∧
      (∀ q, q ≤ 7 → maskScore m fm q = maskScore m fm bid → bid ≤ q) := by
  obtain ⟨bestM2, hloop, hinv⟩ := fbLoop_eq_pure m fm N hN hm hfm hrow hfrow
    [0, 1, 2, 3, 4, 5, 6, 7] none none (by decide) rfl
  obtain ⟨i, hres, hmem, hmin, htie⟩ :=
    pureLoop_argmin (maskScore m fm) [1, 2, 3, 4, 5, 6, 7] 0 (by decide)
  have hpl : pureLoop (maskScore m fm) [0, 1, 2, 3, 4, 5, 6, 7] none =
      some (i, maskScore m fm i) := hres
  have hi7 : i ≤ 7 := by
    rcases List.mem_cons.mp hmem with h | h
    · omega
    · simp [List.mem_cons] at h
      omega
  have hmemq : ∀ q, q ≤ 7 → q ∈ ((0 : Nat) :: [1, 2, 3, 4, 5, 6, 7]) := by
    intro q hq
    interval_cases q <;> decide
  rw [hpl] at hloop hinv
  have hbm : bestM2 = some (applyMaskCore i m fm) := hinv
  refine ⟨applyMaskCore i m fm, i, ?_, hi7,
    fun q hq => hmin q (hmemq q hq), fun q hq heq => htie q (hmemq q hq) heq⟩
  unfold find_best_pattern
  rw [hloop, hbm]

/-- Witness for claim C2 at a concrete 1x1 matrix. -/
theorem C2_witness :
    (0 : Nat) < 1 ∧
    ∃ bm bid, find_best_pattern [[Cell.val 1]] [[false]] = Except.ok (bm, bid) ∧
      bid ≤ 7 ∧
      (∀ q, q ≤ 7 →
        maskScore [[Cell.val 1]] [[false]] bid ≤ maskScore [[Cell.val 1]] [[false]] q) ∧
      (∀ q, q ≤ 7 →
        maskScore [[Cell.val 1]] [[false]] q = maskScore [[Cell.val 1]] [[false]] bid →
          bid ≤ q) :=
  ⟨by decide, C2_find_best_pattern [[Cell.val 1]] [[false]] 1 (by decide) (by decide)
    (by decide)
    (by intro row hr; rw [List.mem_singleton.mp hr]; rfl)
    (by intro row hr; rw [List.mem_singleton.mp hr]; rfl)⟩

/-- Witness for claim C6 at a concrete 1x1 matrix and pattern 0. -/
theorem C6_witness :
    ∃ m2, apply_specific_mask_pattern 0 [[Cell.val 1]] [[false]] = Except.ok m2 ∧
      ∀ r c, r < 1 → c < 1 →
        ((boolAt [[false]] r c = false ∧ mask_condition 0 r c = true →
            ∀ b, cellAt [[Cell.val 1]] r c = Cell.val b →
              cellAt m2 r c = Cell.val (b ^^^ 1)) ∧
         (¬(boolAt [[false]] r c = false ∧ mask_condition 0 r c = true) →
            cellAt m2 r c = cellAt [[Cell.val 1]] r c)) :=
  C6_mask_frame_effect 0 (by decide) [[Cell.val 1]] [[false]] 1 (by decide)
    (by decide) (by decide)
    (by intro row hr; rw [List.mem_singleton.mp hr]; rfl)
    (by intro row hr; rw [List.mem_singleton.mp hr]; rfl)
    (by
      intro r c hr hc hfv
      have hr0 : r = 0 := by omega
      have hc0 : c = 0 := by omega
      subst hr0
      subst hc0
      exact Or.inr rfl)

/-- Witness for claim C10 at a concrete 1x1 matrix and pattern 3. -/
theorem C10_witness :
    ∃ m2, apply_specific_mask_pattern 3 [[Cell.val 0]] [[false]] = Except.ok m2 ∧
      apply_specific_mask_pattern 3 m2 [[false]] = Except.ok [[Cell.val 0]] :=
  C10_mask_involution 3 (by decide) [[Cell.val 0]] [[false]] 1 (by decide)
    (by decide) (by decide)
    (by intro row hr; rw [List.mem_singleton.mp hr]; rfl)
    (by intro row hr; rw [List.mem_singleton.mp hr]; rfl)
    (by
      intro r c hr hc hfv
      have hr0 : r = 0 := by omega
      have hc0 : c = 0 := by omega
      subst hr0
      subst hc0
      exact Or.inl rfl)

theorem foldl_preserve {α β : Type} (P : α → Prop) (step : α → β → α)
    (hstep : ∀ a b, P a → P (step a b)) :
    ∀ (L : List β) (a : α), P a → P (L.foldl step a) := by
  intro L
  induction L with
  | nil => intro a h; exact h
  | cons b bs ih => intro a h; exact ih (step a b) (hstep a b h)

theorem setCellN_dims {m : List (List Nat)} {N : Nat} (h : DimsN m N)
    (r c v : Nat) : DimsN (setCellN m r c v) N := by
  obtain ⟨hlen, hrow⟩ := h
  constructor
  · rw [setCellN, List.length_set, hlen]
  · intro row hmem
    unfold setCellN at hmem
    by_cases hr : r < m.length
    · rcases List.mem_or_eq_of_mem_set hmem with h2 | h2
      · exact hrow row h2
      · rw [h2, List.length_set]
        exact hrow (m.getD r []) (getD_mem m [] r hr)
    · rw [List.set_eq_of_length_le (by omega)] at hmem
      exact hrow row hmem

theorem getCellN_set_eq {m : List (List Nat)} {r c : Nat} (v : Nat)
    (hr : r < m.length) (hc : c < (m.getD r []).length) :
    getCellN (setCellN m r c v) r c = v := by
  unfold getCellN setCellN
  have h1 : (m.set r ((m.getD r []).set c v)).getD r [] = (m.getD r []).set c v := by
    rw [List.getD_eq_getElem _ [] (by rw [List.length_set]; exact hr)]
    exact List.getElem_set_self _
  rw [h1, List.getD_eq_getElem _ 0 (by rw [List.length_set]; exact hc)]
  exact List.getElem_set_self _

/-- Claim C8: for both versions, the matrix produced by
`place_format_information` (the last step of the pipeline) is dark at the
dark-module cell (4·version+9, 8). -/
theorem pfiPrimary_dims {m : List (List Nat)} {N : Nat} (h : DimsN m N)
    (bits : List Nat) : DimsN (pfiPrimary m bits) N :=
  foldl_preserve (fun mm => DimsN mm N) _
    (fun a b ha => setCellN_dims ha _ _ _) _ m h

theorem pfiHoriz_dims {m : List (List Nat)} {N : Nat} (h : DimsN m N)
    (bits : List Nat) (size : Nat) : DimsN (pfiHoriz m bits size) N :=
  foldl_preserve (fun mm => DimsN mm N) _
    (fun a b ha => setCellN_dims ha _ _ _) _ m h

theorem pfiTopCol_dims {m : List (List Nat)} {N : Nat} (h : DimsN m N)
    (bits : List Nat) : DimsN (pfiTopCol m bits) N := by
  apply foldl_preserve (fun (acc : List (List Nat) × Nat) => DimsN acc.1 N)
    _ ?_ (List.range 8) (m, 8) h
  intro a b ha
  by_cases hb : b = 6
  · simp only [hb, if_pos rfl]
    exact ha
  · simp only [if_neg hb]
    exact setCellN_dims ha _ _ _

theorem pfiBottomCol_dims {m : List (List Nat)} {N : Nat} (h : DimsN m N)
    (bits : List Nat) (size : Nat) : DimsN (pfiBottomCol m bits size) N :=
  foldl_preserve (fun (acc : List (List Nat) × Nat) => DimsN acc.1 N)
    _ (fun a b ha => setCellN_dims ha _ _ _) (List.range 8) (m, 0) h

theorem formatLastLoop_eq (m : List (List Nat)) (bits : List Nat) (v idx : Nat) :
    formatLastLoop m bits v idx [0, 1, 2, 3, 4, 5, 6, 7] =
      setCellN (setCellN m 8 0 (bits.getD idx 0)) (4 * v + 9) 8 1 := rfl

/-- Claim C8: for both versions, the matrix produced by
`place_format_information` (the last step of the pipeline) is dark at the
dark-module cell (4·version+9, 8). -/
theorem C8_dark_module (v size : Nat) (m : List (List Nat)) (bits : List Nat)
    (hv : v = 1 ∨ v = 2) (hsize : size = 17 + 4 * v) (hdims : DimsN m size) :
    getCellN (place_format_information m bits size) (4 * v + 9) 8 = 1 := by
  have hdims4 : DimsN (pfiBottomCol (pfiTopCol (pfiHoriz (pfiPrimary m bits)
      bits size) bits) bits size) size :=
    pfiBottomCol_dims (pfiTopCol_dims (pfiHoriz_dims (pfiPrimary_dims hdims _) _ _) _) _ _
  have hv' : get_version_from_size size = v := by
    rcases hv with h | h <;> subst h <;> subst hsize <;> rfl
  unfold place_format_information
  rw [hv', formatLastLoop_eq]
  have hd5 : DimsN (setCellN (pfiBottomCol (pfiTopCol (pfiHoriz (pfiPrimary m bits)
      bits size) bits) bits size) 8 0 (bits.getD 8 0)) size :=
    setCellN_dims hdims4 _ _ _
  obtain ⟨hl5, hr5⟩ := hd5
  apply getCellN_set_eq
  · rw [hl5]
    omega
  · have hmem := getD_mem (setCellN (pfiBottomCol (pfiTopCol (pfiHoriz
      (pfiPrimary m bits) bits size) bits) bits size) 8 0 (bits.getD 8 0)) []
      (4 * v + 9) (by rw [hl5]; omega)
    rw [hr5 _ hmem]
    omega

/-- Divergence witness for claim C1: with format bits b where b[0] = 1 and
b[8] = 0, the returned matrix holds 0 at cell (8,0) — the early return and
the overwriting copies leave b[8], not b[0], there — contradicting the
claimed primary placement. -/
theorem C1_divergence :
    getCellN (place_format_information (zeroMatrix 21) c1Bits 21) 8 0 = 0 ∧
    c1Bits.getD 0 0 = 1 := by
  constructor
  · rfl
  · rfl

/-- Witness for claim C8 at a concrete all-light version-1 matrix. -/
theorem C8_witness :
    getCellN (place_format_information (zeroMatrix 21) c1Bits 21) (4 * 1 + 9) 8 = 1 :=
  C8_dark_module 1 21 (zeroMatrix 21) c1Bits (Or.inl rfl) rfl
    ⟨rfl, by intro row hr; rw [List.eq_of_mem_replicate hr]; rfl⟩

theorem length_setCellQ (m : QRMatrix) (r c : Nat) (v : Cell) :
    (setCellQ m r c v).length = m.length := List.length_set m r _

theorem getD_set_eq {α : Type} (l : List α) (i : Nat) (a d : α) (h : i < l.length) :
    (l.set i a).getD i d = a := by
  rw [List.getD_eq_getElem _ _ (by simpa using h)]
  exact List.getElem_set_self _

theorem getD_set_ne {α : Type} (l : List α) (i j : Nat) (a d : α) (h : i ≠ j) :
    (l.set i a).getD j d = l.getD j d := by
  rw [List.getD_eq_getElem?_getD (l.set i a), List.getD_eq_getElem?_getD l,
    List.getElem?_set_ne h]

theorem getD_map_of_lt {α β : Type} (f : α → β) (l : List α) (i : Nat)
    (d : β) (d2 : α) (h : i < l.length) :
    (l.map f).getD i d = f (l.getD i d2) := by
  rw [List.getD_eq_getElem _ _ (by simpa using h), List.getElem_map,
    List.getD_eq_getElem _ _ h]

theorem rowLen_setCellQ (m : QRMatrix) (r c : Nat) (v : Cell) (i : Nat) :
    ((setCellQ m r c v).getD i []).length = (m.getD i []).length := by
  unfold setCellQ
  by_cases hir : i = r
  · subst hir
    by_cases hlen : i < m.length
    · rw [getD_set_eq m i _ [] hlen, List.length_set]
    · rw [List.set_eq_of_length_le (by omega)]
  · rw [getD_set_ne m r i _ [] (fun h => hir h.symm)]

theorem cellAt_setCellQ_ne (m : QRMatrix) (r c : Nat) (v : Cell) (r2 c2 : Nat)
    (h : ¬(r = r2 ∧ c = c2)) :
    cellAt (setCellQ m r c v) r2 c2 = cellAt m r2 c2 := by
  unfold setCellQ cellAt
  by_cases hr : r = r2
  · subst hr
    have hc : c ≠ c2 := fun hc => h ⟨rfl, hc⟩
    by_cases hlen : r < m.length
    · rw [getD_set_eq m r _ [] hlen, getD_set_ne _ c c2 _ _ hc]
    · rw [List.set_eq_of_length_le (by omega)]
  · rw [getD_set_ne m r r2 _ [] hr]

theorem cellAt_setCellQ_eq (m : QRMatrix) (r c : Nat) (v : Cell)
    (hr : r < m.length) (hc : c < (m.getD r []).length) :
    cellAt (setCellQ m r c v) r c = v := by
  unfold setCellQ cellAt
  rw [getD_set_eq m r _ [] hr, getD_set_eq _ c _ _ hc]

theorem cellAt_fillUnsetZero_of_ne (m : QRMatrix) (r c : Nat)
    (h : cellAt m r c ≠ Cell.unset) :
    cellAt (fillUnsetZero m) r c = cellAt m r c := by
  unfold cellAt at h
  unfold fillUnsetZero cellAt
  by_cases hr : r < m.length
  · rw [getD_map_of_lt _ m r [] [] hr]
    by_cases hc : c < (m.getD r []).length
    · rw [getD_map_of_lt _ (m.getD r []) c Cell.unset Cell.unset hc]
      exact if_neg h
    · exact absurd (List.getD_eq_default _ _ (by omega)) h
  · exact absurd (by rw [List.getD_eq_default m [] (by omega)]; rfl) h

theorem placeStep_unset (bits : List Nat) (m : QRMatrix) (i : Nat)
    (rc : Nat × Nat) (h : cellAt m rc.1 rc.2 = Cell.unset) (hi : i < bits.length) :
    placeStep bits (m, i) rc =
      (setCellQ m rc.1 rc.2 (Cell.val (bits.getD i 0)), i + 1) := by
  unfold placeStep
  rw [if_pos h, if_pos hi]

theorem placeStep_set (bits : List Nat) (m : QRMatrix) (i : Nat)
    (rc : Nat × Nat) (h : ¬cellAt m rc.1 rc.2 = Cell.unset) :
    placeStep bits (m, i) rc = (m, i) := by
  unfold placeStep
  rw [if_neg h]

/-- The placement fold writes the stream bits, in order, exactly into the
still-empty visited cells and leaves every other cell unchanged, provided
the visited positions are distinct, in range, and the stream is long
enough. -/
theorem placeFold_spec (bits : List Nat) :
    ∀ (P : List (Nat × Nat)) (m : QRMatrix) (i : Nat),
      P.Nodup →
      (∀ rc ∈ P, rc.1 < m.length ∧ rc.2 < (m.getD rc.1 []).length) →
      i + (unsetFilter m P).length ≤ bits.length →
      (P.foldl (placeStep bits) (m, i)).2 = i + (unsetFilter m P).length ∧
      (∀ k, (hk : k < (unsetFilter m P).length) →
        cellAt (P.foldl (placeStep bits) (m, i)).1
          ((unsetFilter m P).get ⟨k, hk⟩).1 ((unsetFilter m P).get ⟨k, hk⟩).2
          = Cell.val (bits.getD (i + k) 0)) ∧
      (∀ r c, cellAt m r c ≠ Cell.unset →
        cellAt (P.foldl (placeStep bits) (m, i)).1 r c = cellAt m r c) := by
  intro P
  induction P with
  | nil =>
    intro m i _ _ _
    refine ⟨rfl, ?_, ?_⟩
    · intro k hk; exact absurd hk (by simp [unsetFilter])
    · intro r c _; rfl
  | cons p P ih =>
    intro m i hnd hB hlen
    obtain ⟨hp, hnd'⟩ := List.nodup_cons.mp hnd
    have hBp := hB p (List.mem_cons_self _ _)
    by_cases hcell : cellAt m p.1 p.2 = Cell.unset
    · have hUcons : unsetFilter m (p :: P) = p :: unsetFilter m P := by
        unfold unsetFilter
        exact List.filter_cons_of_pos (by simpa using hcell)
      rw [hUcons] at hlen ⊢
      rw [List.length_cons] at hlen
      have hi : i < bits.length := by omega
      have hfold : (p :: P).foldl (placeStep bits) (m, i) =
          P.foldl (placeStep bits)
            (setCellQ m p.1 p.2 (Cell.val (bits.getD i 0)), i + 1) := by
        show P.foldl (placeStep bits) (placeStep bits (m, i) p) = _
        rw [placeStep_unset bits m i p hcell hi]
      have hmem_ne : ∀ q ∈ P, ¬(p.1 = q.1 ∧ p.2 = q.2) := by
        intro q hq hc
        exact hp (by rw [Prod.ext hc.1 hc.2]; exact hq)
      have hUsame : unsetFilter (setCellQ m p.1 p.2 (Cell.val (bits.getD i 0))) P
          = unsetFilter m P := by
        unfold unsetFilter
        refine List.filter_congr ?_
        intro q hq
        rw [cellAt_setCellQ_ne _ _ _ _ _ _ (hmem_ne q hq)]
      have hB' : ∀ rc ∈ P,
          rc.1 < (setCellQ m p.1 p.2 (Cell.val (bits.getD i 0))).length ∧
          rc.2 < ((setCellQ m p.1 p.2 (Cell.val (bits.getD i 0))).getD rc.1 []).length := by
        intro rc hrc
        rw [length_setCellQ, rowLen_setCellQ]
        exact hB rc (List.mem_cons_of_mem _ hrc)
      have hlen' : i + 1 +
          (unsetFilter (setCellQ m p.1 p.2 (Cell.val (bits.getD i 0))) P).length
          ≤ bits.length := by
        rw [hUsame]
        omega
      obtain ⟨h1, h2, h3⟩ := ih (setCellQ m p.1 p.2 (Cell.val (bits.getD i 0))) (i + 1)
        hnd' hB' hlen'
      rw [hUsame] at h1 h2
      have hpv : cellAt (setCellQ m p.1 p.2 (Cell.val (bits.getD i 0))) p.1 p.2
          = Cell.val (bits.getD i 0) :=
        cellAt_setCellQ_eq m p.1 p.2 _ hBp.1 hBp.2
      refine ⟨?_, ?_, ?_⟩
      · rw [hfold, h1, List.length_cons]
        omega
      · intro k hk
        rw [hfold]
        cases k with
        | zero =>
          have hg : (p :: unsetFilter m P).get ⟨0, hk⟩ = p := rfl
          rw [hg]
          have hkeep := h3 p.1 p.2 (by rw [hpv]; intro hc; exact Cell.noConfusion hc)
          rw [hkeep, hpv, Nat.add_zero]
        | succ k =>
          have hk' : k < (unsetFilter m P).length := by
            rw [List.length_cons] at hk
            omega
          have hg : (p :: unsetFilter m P).get ⟨k + 1, hk⟩
              = (unsetFilter m P).get ⟨k, hk'⟩ := rfl
          rw [hg]
          have hik : i + (k + 1) = i + 1 + k := by omega
          rw [hik]
          exact h2 k hk'
      · intro r c hrc
        rw [hfold]
        have hne : ¬(p.1 = r ∧ p.2 = c) := by
          intro hc
          rw [← hc.1, ← hc.2] at hrc
          exact hrc hcell
        have hstep : cellAt (setCellQ m p.1 p.2 (Cell.val (bits.getD i 0))) r c
            = cellAt m r c := cellAt_setCellQ_ne _ _ _ _ _ _ hne
        rw [h3 r c (by rw [hstep]; exact hrc), hstep]
    · have hUcons : unsetFilter m (p :: P) = unsetFilter m P := by
        unfold unsetFilter
        refine List.filter_cons_of_neg ?_
        simpa using hcell
      rw [hUcons] at hlen ⊢
      have hfold : (p :: P).foldl (placeStep bits) (m, i) =
          P.foldl (placeStep bits) (m, i) := by
        show P.foldl (placeStep bits) (placeStep bits (m, i) p) = _
        rw [placeStep_set bits m i p hcell]
      rw [hfold]
      exact ih m i hnd' (fun rc hrc => hB rc (List.mem_cons_of_mem _ hrc)) hlen

theorem mem_pairPositions {size col : Nat} {down : Bool} {rc : Nat × Nat}
    (h : rc ∈ pairPositions size col down) : rc.2 = col ∨ rc.2 = col - 1 := by
  unfold pairPositions at h
  obtain ⟨l, hl, hrc⟩ := List.mem_flatten.mp h
  obtain ⟨k, _, rfl⟩ := List.mem_map.mp hl
  rcases List.mem_cons.mp hrc with rfl | hrc2
  · exact Or.inl rfl
  · by_cases hcol : 1 ≤ col
    · rw [if_pos hcol] at hrc2
      rcases List.mem_cons.mp hrc2 with rfl | hrc3
      · exact Or.inr rfl
      · exact absurd hrc3 (List.not_mem_nil _)
    · rw [if_neg hcol] at hrc2
      exact absurd hrc2 (List.not_mem_nil _)

/-- The zig-zag walk visits distinct cells as soon as each column pair
visits distinct cells and the column pairs use pairwise disjoint columns. -/
theorem nodup_aux (size : Nat) (cols : List (Nat × Bool))
    (hcols : cols.Pairwise (fun a b =>
      a.1 ≠ b.1 ∧ a.1 ≠ b.1 - 1 ∧ a.1 - 1 ≠ b.1 ∧ a.1 - 1 ≠ b.1 - 1))
    (hnd : ∀ cd ∈ cols, (pairPositions size cd.1 cd.2).Nodup) :
    ((cols.map (fun cd => pairPositions size cd.1 cd.2)).flatten).Nodup := by
  rw [List.nodup_flatten]
  constructor
  · intro l hl
    obtain ⟨cd, hcd, rfl⟩ := List.mem_map.mp hl
    exact hnd cd hcd
  · rw [List.pairwise_map]
    refine hcols.imp ?_
    intro a b hab x hxa hxb
    rcases mem_pairPositions hxa with h1 | h1 <;>
      rcases mem_pairPositions hxb with h2 | h2
    · exact hab.1 (h1 ▸ h2 ▸ rfl)
    · exact hab.2.1 (h1 ▸ h2 ▸ rfl)
    · exact hab.2.2.1 (h1 ▸ h2 ▸ rfl)
    · exact hab.2.2.2 (h1 ▸ h2 ▸ rfl)

theorem dataPath_nodup_1 : (dataPathPositions (get_size_from_version 1)).Nodup := by
  have h : dataPathPositions (get_size_from_version 1)
      = ((colSeqF 23 20 false).map (fun cd => pairPositions 21 cd.1 cd.2)).flatten := rfl
  rw [h]
  exact nodup_aux 21 (colSeqF 23 20 false) (by decide) (by decide)

theorem dataPath_nodup_2 : (dataPathPositions (get_size_from_version 2)).Nodup := by
  have h : dataPathPositions (get_size_from_version 2)
      = ((colSeqF 27 24 false).map (fun cd => pairPositions 25 cd.1 cd.2)).flatten := rfl
  rw [h]
  exact nodup_aux 25 (colSeqF 27 24 false) (by decide) (by decide)

theorem dataPath_bounds_1 : ∀ rc ∈ dataPathPositions (get_size_from_version 1),
    rc.1 < (layoutPre 1).length ∧ rc.2 < ((layoutPre 1).getD rc.1 []).length := by
  decide

theorem dataPath_bounds_2 : ∀ rc ∈ dataPathPositions (get_size_from_version 2),
    rc.1 < (layoutPre 2).length ∧ rc.2 < ((layoutPre 2).getD rc.1 []).length := by
  decide

theorem funcCount1 : funcFalseCount (create_function_pattern_matrix 1) = 208 := by
  decide

theorem funcCount2 : funcFalseCount (create_function_pattern_matrix 2) = 359 := by
  decide

theorem gridEq1 :
    (layoutPre 1).map (fun row => row.map (fun cell => decide (cell = Cell.unset)))
      = (create_function_pattern_matrix 1).map (fun row => row.map (fun b => !b)) := by
  decide

theorem gridEq2 :
    (layoutPre 2).map (fun row => row.map (fun cell => decide (cell = Cell.unset)))
      = (create_function_pattern_matrix 2).map (fun row => row.map (fun b => !b)) := by
  decide

theorem upLen1 : (unsetPath 1).length = 208 := by decide

theorem upLen2 : (unsetPath 2).length = 359 := by decide

/-- The placement fold, started on the laid-out matrix, consumes exactly one
stream bit per still-empty visited cell, writes the k-th consumed bit into
the k-th still-empty cell of the walk, and leaves every other cell alone. -/
theorem capacity_spec (v D : Nat)
    (hnd : (dataPathPositions (get_size_from_version v)).Nodup)
    (hB : ∀ rc ∈ dataPathPositions (get_size_from_version v),
      rc.1 < (layoutPre v).length ∧ rc.2 < ((layoutPre v).getD rc.1 []).length)
    (hD : (unsetPath v).length = D) :
    ∀ bits : List Nat, bits.length = D →
      ((dataPathPositions (get_size_from_version v)).foldl (placeStep bits)
          (layoutPre v, 0)).2 = D ∧
      (∀ k, k < (unsetPath v).length →
        cellAt (place_data_bits (layoutPre v) (get_size_from_version v) bits)
          ((unsetPath v).getD k (0, 0)).1 ((unsetPath v).getD k (0, 0)).2
          = Cell.val (bits.getD k 0)) ∧
      (∀ r c, cellAt (layoutPre v) r c ≠ Cell.unset →
        cellAt (place_data_bits (layoutPre v) (get_size_from_version v) bits) r c
          = cellAt (layoutPre v) r c) := by
  intro bits hblen
  have hup : unsetPath v
      = unsetFilter (layoutPre v) (dataPathPositions (get_size_from_version v)) := rfl
  have hDs : (unsetFilter (layoutPre v)
      (dataPathPositions (get_size_from_version v))).length = D := hD
  have hle : 0 + (unsetFilter (layoutPre v)
      (dataPathPositions (get_size_from_version v))).length ≤ bits.length := by
    rw [hDs, hblen]
    omega
  obtain ⟨h1, h2, h3⟩ := placeFold_spec bits
    (dataPathPositions (get_size_from_version v)) (layoutPre v) 0 hnd hB hle
  have hpd : place_data_bits (layoutPre v) (get_size_from_version v) bits
      = fillUnsetZero ((dataPathPositions (get_size_from_version v)).foldl
          (placeStep bits) (layoutPre v, 0)).1 := rfl
  refine ⟨?_, ?_, ?_⟩
  · rw [h1, hDs]
    omega
  · intro k hk
    have hk' : k < (unsetFilter (layoutPre v)
        (dataPathPositions (get_size_from_version v))).length := hk
    have hcell := h2 k hk'
    rw [Nat.zero_add] at hcell
    have hgd : (unsetPath v).getD k (0, 0)
        = (unsetFilter (layoutPre v)
            (dataPathPositions (get_size_from_version v))).get ⟨k, hk'⟩ := by
      rw [hup, List.getD_eq_getElem _ _ hk', List.get_eq_getElem]
    rw [hpd, hgd,
      cellAt_fillUnsetZero_of_ne _ _ _ (by rw [hcell]; exact fun h => Cell.noConfusion h)]
    exact hcell
  · intro r c hrc
    have hpres := h3 r c hrc
    rw [hpd, cellAt_fillUnsetZero_of_ne _ _ _ (by rw [hpres]; exact hrc), hpres]

/-- **C7**: the function-pattern map of `create_function_pattern_matrix` has
exactly 208 non-function cells for version 1 and 359 for version 2; these
cells coincide with the cells left empty by the layout pipeline, and
`place_data_bits` on the laid-out matrix consumes the whole stream, placing
its k-th bit into the k-th still-empty cell of the zig-zag walk while every
already-filled cell keeps its value. -/
theorem C7_data_capacity (v D : Nat)
    (hv : (v = 1 ∧ D = 208) ∨ (v = 2 ∧ D = 359)) :
    funcFalseCount (create_function_pattern_matrix v) = D ∧
    (layoutPre v).map (fun row => row.map (fun cell => decide (cell = Cell.unset)))
      = (create_function_pattern_matrix v).map (fun row => row.map (fun b => !b)) ∧
    (unsetPath v).length = D ∧
    ∀ bits : List Nat, bits.length = D →
      ((dataPathPositions (get_size_from_version v)).foldl (placeStep bits)
          (layoutPre v, 0)).2 = D ∧
      (∀ k, k < (unsetPath v).length →
        cellAt (place_data_bits (layoutPre v) (get_size_from_version v) bits)
          ((unsetPath v).getD k (0, 0)).1 ((unsetPath v).getD k (0, 0)).2
          = Cell.val (bits.getD k 0)) ∧
      (∀ r c, cellAt (layoutPre v) r c ≠ Cell.unset →
        cellAt (place_data_bits (layoutPre v) (get_size_from_version v) bits) r c
          = cellAt (layoutPre v) r c) := by
  rcases hv with ⟨hv, hDv⟩ | ⟨hv, hDv⟩ <;> subst hv <;> subst hDv
  · exact ⟨funcCount1, gridEq1, upLen1,
      capacity_spec 1 208 dataPath_nodup_1 dataPath_bounds_1 upLen1⟩
  · exact ⟨funcCount2, gridEq2, upLen2,
      capacity_spec 2 359 dataPath_nodup_2 dataPath_bounds_2 upLen2⟩

/-- Witness for claim C7: version 1 with a concrete all-ones 208-bit stream;
the walk consumes the whole stream. -/
theorem C7_witness :
    ((dataPathPositions (get_size_from_version 1)).foldl
        (placeStep (List.replicate 208 1)) (layoutPre 1, 0)).2 = 208 :=
  ((C7_data_capacity 1 208 (Or.inl ⟨rfl, rfl⟩)).2.2.2 (List.replicate 208 1)
    (by simp)).1

end QR
